import Mathlib

/-!
Verification of the Analysis Orchestration & Recovery Engine
(js/core/pipeline.js and js/core/state-manager.js).

The JavaScript is shallowly embedded: pure string manipulation is
translated to functions on `String`/`List Char`; the localStorage-backed
checkpoint/archive store becomes explicit state passing over a
`LocalStorage` record with the quota decision abstracted as a boolean
oracle; the single-threaded async pipeline becomes a labelled transition
system whose steps are the resolution of an outstanding remote call or an
external cancel, with opaque remote payloads modelled as `Nat`.
-/

namespace QLTool

/-! ## String helpers (models of the JS string primitives used) -/

/-- ASCII whitespace test; models the whitespace class of JS
String.prototype.trim for the ASCII fragment. -/
def isAsciiWs (c : Char) : Bool :=
  c == ' ' || c == '\t' || c == '\n' || c == '\r'

/-- Models JS url.trim() (ASCII fragment). -/
def jsTrim (s : String) : String :=
  String.mk (((s.data.dropWhile isAsciiWs).reverse.dropWhile isAsciiWs).reverse)

/-- Models JS toLowerCase for the ASCII fragment (Char.toLower maps A-Z). -/
def jsToLower (s : String) : String :=
  String.mk (s.data.map Char.toLower)

/-- Lowercase ASCII letter or digit: the class [a-z0-9] of the JS regexes. -/
def isLowerAlnum (c : Char) : Bool :=
  ('a' ≤ c && c ≤ 'z') || ('0' ≤ c && c ≤ '9')

/-- Models s.replace(/[^a-z0-9]/g, '-'). -/
def normalizeHyphens (s : String) : String :=
  String.mk (s.data.map (fun c => if isLowerAlnum c then c else '-'))

/-- Models s.replace(/[^a-z0-9]/g, ''). -/
def removeNonAlnum (s : String) : String :=
  String.mk (s.data.filter isLowerAlnum)

/-- Replace the first occurrence of pat in the list by repl; helper for
the single-replacement form of JS String.prototype.replace with a string
pattern. If pat does not occur the input is returned unchanged. -/
def replFirstAux (pat repl : List Char) : List Char → List Char
  | [] => []
  | c :: cs =>
    if pat.isPrefixOf (c :: cs) then repl ++ (c :: cs).drop pat.length
    else c :: replFirstAux pat repl cs

/-- Models JS s.replace(pat, repl) with a STRING pattern: only the first
occurrence is replaced (the source uses hostname.replace with the string
pattern www. , not a global regex). -/
def jsReplaceFirst (s pat repl : String) : String :=
  String.mk (replFirstAux pat.data repl.data s.data)

/-- Models the regex fileName.replace(/\.[^\/.]+$/, ''): strip a trailing
dot-extension whose text is nonempty and contains neither '.' nor '/'. -/
def stripExtension (s : String) : String :=
  let r := s.data.reverse
  let ext := r.takeWhile (fun c => c != '.' && c != '/')
  match r.drop ext.length with
  | '.' :: restRev => if ext.isEmpty then s else String.mk restRev.reverse
  | _ => s

/-- Case-insensitive scheme stripping: recognizes an http:// or https://
scheme at the front. Part of the model of the platform URL parser. -/
def dropSchemeCI (s : List Char) : Option (List Char) :=
  let low := s.map Char.toLower
  if "https://".data.isPrefixOf low then some (s.drop 8)
  else if "http://".data.isPrefixOf low then some (s.drop 7)
  else none

/-- Model of the browser URL parser as used by the source: new URL(u)
followed by reading .hostname. Only the http(s) fragment the repository
feeds it is modelled: the scheme is stripped case-insensitively, the host
is everything up to the first '/', ':', '?' or '#', lowercased; an absent
scheme or empty host makes parsing fail (new URL would throw).
Userinfo, punycode and IPv6 forms are outside the modelled fragment. -/
def parseUrlHost (u : String) : Option String :=
  match dropSchemeCI u.data with
  | none => none
  | some rest =>
    let host := rest.takeWhile (fun c => c != '/' && c != ':' && c != '?' && c != '#')
    if host.isEmpty then none else some (String.mk (host.map Char.toLower))

/-- Models JS String.prototype.startsWith (kept on character lists). -/
def jsStartsWith (s pre : String) : Bool :=
  pre.data.isPrefixOf s.data

/-- JS truthiness of a string-or-absent value: null/undefined and the
empty string are falsy. -/
def jsTruthy (o : Option String) : Bool :=
  match o with
  | some s => s != ""
  | none => false

/-! ## StateManager.generateAssessmentKey (state-manager.js 256-273) -/

/-- Translation of StateManager.generateAssessmentKey(url, advisorName,
fileName). The URL branch prefixes https:// unless the raw string starts
with "http" (case-sensitively, as in the source), parses the host and
removes the FIRST occurrence of the substring "www." via the string-form
replace; an unparseable URL falls back to the lowercased input with
non-alphanumerics removed; the file branch strips the extension and
normalizes to lowercase alphanumerics-with-hyphens; the advisor name
defaults to "unknown" and is normalized the same way (the
(advisorName || 'unknown') fallback followed by
toLowerCase().replace(/[^a-z0-9]/g, '-'), split out as
normalizedAdvisor). -/
def normalizedAdvisor (advisorName : Option String) : String :=
  let rawAdvisor :=
    match advisorName with
    | some s => if s != "" then s else "unknown"
    | none => "unknown"
  normalizeHyphens (jsToLower rawAdvisor)

/-- See the comment above: the key-derivation body of
StateManager.generateAssessmentKey. -/
def generateAssessmentKey (url advisorName fileName : Option String) : String :=
  let identifier :=
    if jsTruthy url then
      let u := url.getD ""
      let candidate := if jsStartsWith u "http" then u else "https://" ++ u
      match parseUrlHost candidate with
      | some host => jsReplaceFirst host "www." ""
      | none => removeNonAlnum (jsToLower u)
    else if jsTruthy fileName then
      normalizeHyphens (jsToLower (stripExtension (fileName.getD "")))
    else ""
  identifier ++ "_" ++ normalizedAdvisor advisorName

/-- The C4 claim text's treatment of the host, as written: the parsed
host with any LEADING "www." stripped. Used only to compare the claim's
words against the source's behaviour. -/
def claimIdentifierOfHost (host : String) : String :=
  if jsStartsWith host "www." then String.mk (host.data.drop 4) else host

/-! ## Archive (assessment cache) model (state-manager.js 290-337, 388-420) -/

/-- One archived assessment. Only the identity key and the write
timestamp drive retention; the remaining snapshot fields (companyInput,
userScores, aiData, ventureName, advisorName, smartsheetRowId) are
retention-irrelevant and folded into an opaque payload. -/
structure CachedAssessment where
  key : String
  timestamp : Nat
  payload : Nat
deriving DecidableEq, Repr

/-- The archive namespace: the JS object stored under
noblereach_assessments, modelled as its entries in insertion order
(string-keyed JS objects preserve insertion order, and an upsert of an
existing key keeps its position). -/
abbrev Archive := List CachedAssessment

/-- Insert into an ascending-by-timestamp list, before strictly larger
timestamps (stability matches the stable JS Array.prototype.sort with
comparator (cache[a].timestamp||0)-(cache[b].timestamp||0)). -/
def insertByTs (a : CachedAssessment) : Archive → Archive
  | [] => [a]
  | b :: bs => if b.timestamp < a.timestamp then b :: insertByTs a bs else a :: b :: bs

/-- Stable insertion sort ascending by timestamp; models
keys.sort((a,b) => (cache[a].timestamp||0) - (cache[b].timestamp||0)). -/
def sortByTs : Archive → Archive
  | [] => []
  | a :: rest => insertByTs a (sortByTs rest)

/-- The eviction loop shared by cacheFullAssessment (cap 50) and
pruneAssessmentCache (cap 20): if the archive exceeds cap, sort the keys
ascending by timestamp and delete the first (length - cap) of them from
the object; the survivors keep their original insertion order. -/
def evictOldest (cache : Archive) (cap : Nat) : Archive :=
  if cache.length > cap then
    let sorted := sortByTs cache
    let doomed := (sorted.take (cache.length - cap)).map (fun e => e.key)
    cache.filter (fun e => !(doomed.contains e.key))
  else cache

/-- cache[state.assessmentKey] = cachedAssessment on a string-keyed JS
object: replace in place when the key exists, else append. -/
def cacheUpsert (cache : Archive) (a : CachedAssessment) : Archive :=
  if cache.any (fun e => e.key == a.key) then
    cache.map (fun e => if e.key == a.key then a else e)
  else cache ++ [a]

/-- The retention-relevant core of StateManager.cacheFullAssessment:
upsert the new snapshot under its key, then evict oldest-by-timestamp
entries down to the 50-entry cap. -/
def cacheFullAssessment (cache : Archive) (a : CachedAssessment) : Archive :=
  evictOldest (cacheUpsert cache a) 50

/-! ## Checkpoint state and the versioned store (state-manager.js 49-98, 388-420, 482-492) -/

/-- The checkpoint record of createEmptyState. version is Option String
(none models an absent/removed field; some "" is falsy to JS).
smartsheetRowId and assessmentKey use none for null/absent. The
remaining fields are carried opaquely so that the frame of the migration
(all existing fields unchanged) is expressible. -/
structure CheckpointState where
  version : Option String
  timestamp : Nat
  status : String
  companyInput : Option Nat
  completedPhases : List (String × Nat)
  userScores : Nat
  scaName : Option String
  smartsheetRowId : Option String
  assessmentKey : Option String
  finalRecommendation : String
  customVentureName : Option String
deriving DecidableEq, Repr

/-- The durable keyed storage: the two fixed keys the store owns.
stateSlot is the parsed content of noblereach_qa_state (none = absent),
cacheSlot of noblereach_assessments. -/
structure LocalStorage where
  stateSlot : Option CheckpointState
  cacheSlot : Option Archive
deriving DecidableEq, Repr

/-- The StateManager version constant (this.version = '2.1'). -/
def managerVersion : String := "2.1"

/-- StateManager.getState: read and version-check the checkpoint. A
present truthy version that does not start with "2." clears the slot and
returns null; otherwise the state is returned as stored. (The
JSON.parse failure branch returns null without clearing and is not
modelled: the slot holds parsed records.) -/
def getState (st : LocalStorage) : Option CheckpointState × LocalStorage :=
  match st.stateSlot with
  | none => (none, st)
  | some s =>
    if jsTruthy s.version && !(jsStartsWith (s.version.getD "") "2.") then
      (none, { st with stateSlot := none })
    else (some s, st)

/-- StateManager.saveState: stamp the manager version and write the
slot. (The try/catch around setItem swallows write errors; state-slot
writes are modelled as succeeding.) -/
def saveState (st : LocalStorage) (s : CheckpointState) : LocalStorage :=
  { st with stateSlot := some { s with version := some managerVersion } }

/-- StateManager.migrateIfNeeded: a stored state at version 2.0 is
upgraded in place to 2.1: the two newly-introduced fields are set to
null when falsy and kept when truthy; nothing else changes and the
result is saved. -/
def migrateIfNeeded (st : LocalStorage) : LocalStorage :=
  let read := getState st
  match read.1 with
  | some s =>
    if s.version == some "2.0" then
      let s' : CheckpointState :=
        { s with
          version := some managerVersion
          smartsheetRowId := if jsTruthy s.smartsheetRowId then s.smartsheetRowId else none
          assessmentKey := if jsTruthy s.assessmentKey then s.assessmentKey else none }
      saveState read.2 s'
    else read.2
  | none => read.2

/-! ## Quota handling (state-manager.js 388-420)

The quota decision of the storage medium is abstracted as an oracle
fits st v: whether localStorage.setItem(assessmentCacheKey, JSON(v))
succeeds in storage state st. A false oracle answer models a thrown
QuotaExceededError. The mutual recursion between saveAssessmentCache
and pruneAssessmentCache is fuel-indexed because the JS recursion is
unbounded when even the pruned archive does not fit. -/

/-- One localStorage.setItem attempt on the archive key. -/
def trySetCache (fits : LocalStorage → Archive → Bool) (st : LocalStorage)
    (v : Archive) : Option LocalStorage :=
  if fits st v then some { st with cacheSlot := some v } else none

mutual

/-- StateManager.saveAssessmentCache: try the write; on quota rejection
prune the stored archive, then retry the same write exactly once and
abandon on a second failure (the catch swallows the error). The Nat
returned counts the setItem attempts made for THIS cache value. -/
def saveAssessmentCache (fits : LocalStorage → Archive → Bool) :
    Nat → LocalStorage → Archive → LocalStorage × Nat
  | 0, st, _ => (st, 0)
  | fuel + 1, st, cache =>
    match trySetCache fits st cache with
    | some st1 => (st1, 1)
    | none =>
      let st1 := pruneAssessmentCache fits fuel st
      match trySetCache fits st1 cache with
      | some st2 => (st2, 2)
      | none => (st1, 2)

/-- StateManager.pruneAssessmentCache: read the stored archive and, if it
holds more than 20 entries, delete the oldest-by-timestamp entries down
to 20 and save the pruned archive. -/
def pruneAssessmentCache (fits : LocalStorage → Archive → Bool) :
    Nat → LocalStorage → LocalStorage
  | 0, st => st
  | fuel + 1, st =>
    let cache := st.cacheSlot.getD []
    if cache.length > 20 then
      (saveAssessmentCache fits fuel st (evictOldest cache 20)).1
    else st

end

/-! ## Pipeline data model (pipeline.js 4-79)

The six phases of the registry. Display-only registry fields (name,
estimated duration) are not referenced by any verified property and are
omitted from the phase record. Remote results and errors are opaque and
modelled as Nat. -/

inductive PhaseKey
  | company | team | funding | competitive | market | iprisk
deriving DecidableEq, Repr

/-- The five parallel-cohort phases, in registry (fan-out) order. -/
def cohortKeys : List PhaseKey :=
  [.team, .funding, .competitive, .market, .iprisk]

/-- All phases in registry order (the this.phases array order). -/
def allKeys : List PhaseKey := .company :: cohortKeys

/-- Per-phase lifecycle state ('pending' | 'active' | 'completed' | 'error'). -/
inductive Status
  | pending | active | completed | error
deriving DecidableEq, Repr

/-- The input a remote call was issued with. The gating call takes the
validated url and the file flag; a cohort call takes the short company
description captured from the gating result; missingDescription models
the immediately-rejected operation produced when a cohort phase runs
with no description available. -/
inductive CallPayload
  | companyInput (url : Option String) (hasFile : Bool)
  | description (d : Nat)
  | missingDescription
deriving DecidableEq, Repr

/-- An in-flight remote operation (the per-phase promise): its identity,
its input, and the id of the AbortController signal it was issued with
(none models reading .signal off a null controller, unreachable in the
verified flows). -/
structure CallInfo where
  id : Nat
  payload : CallPayload
  signalId : Option Nat
deriving DecidableEq, Repr

/-- One entry of this.phases: status, startTime, endTime, data, error,
and the cached in-flight promise ( none once runPhase's finally block
has deleted it ). -/
structure PhaseRec where
  status : Status
  startTime : Option Nat
  endTime : Option Nat
  data : Option Nat
  error : Option Nat
  promise : Option CallInfo
deriving DecidableEq, Repr

/-- Where the start() coroutine is suspended: not started, awaiting the
gating phase, awaiting the Promise.allSettled join over the still-
unsettled cohort phases, or returned. -/
inductive Control
  | idle
  | awaitingCompany
  | awaitingCohort (remaining : List PhaseKey)
  | done
deriving DecidableEq, Repr

/-- The AbortController: identity plus its signal's aborted flag. -/
structure Ctrl where
  id : Nat
  aborted : Bool
deriving DecidableEq, Repr

/-- Lifecycle events emitted through emit(). Payloads are carried only
where a verified property inspects them. -/
inductive Event
  | start
  | phaseStart (k : PhaseKey)
  | phaseComplete (k : PhaseKey)
  | phaseError (k : PhaseKey)
  | overviewReady
  | allComplete
  | complete (results : List (PhaseKey × Option Nat))
  | partialComplete (results : List (PhaseKey × Option Nat)) (failed : List PhaseKey)
  | errorEv
  | cancelled (active : Option PhaseKey)
deriving DecidableEq, Repr

/-- The AnalysisPipeline instance state. phases is total over the six
registry keys (the registry holds exactly one record per key); now is a
logical clock standing in for Date.now(), bumped whenever the source
reads it. -/
structure PipeState where
  phases : PhaseKey → PhaseRec
  isRunning : Bool
  startTime : Option Nat
  abortCtrl : Option Ctrl
  companyUrl : Option String
  companyFile : Bool
  companyDescription : Option Nat
  activePhases : List PhaseKey
  control : Control
  nextCallId : Nat
  nextCtrlId : Nat
  now : Nat

/-- A pristine phase record (constructor values). -/
def initPhase : PhaseRec :=
  { status := .pending, startTime := none, endTime := none
    data := none, error := none, promise := none }

/-- The constructor state of AnalysisPipeline. -/
def initPipeState : PipeState :=
  { phases := fun _ => initPhase
    isRunning := false
    startTime := none
    abortCtrl := none
    companyUrl := none
    companyFile := false
    companyDescription := none
    activePhases := []
    control := .idle
    nextCallId := 0
    nextCtrlId := 0
    now := 0 }

/-- Replace one phase record. -/
def updatePhase (s : PipeState) (k : PhaseKey) (p : PhaseRec) : PipeState :=
  { s with phases := Function.update s.phases k p }

/-- this.getResults(): one entry per registry key carrying the phase's
recorded data (the company full/short unwrapping acts inside the opaque
payload and is not modelled separately). -/
def getResults (s : PipeState) : List (PhaseKey × Option Nat) :=
  allKeys.map (fun k => (k, (s.phases k).data))

/-- this.phases.filter(p => p.status === 'error').map(p => p.key). -/
def failedKeys (s : PipeState) : List PhaseKey :=
  allKeys.filter (fun k => (s.phases k).status == .error)

/-- this.phases.every(p => p.status === 'completed'). -/
def allSucceeded (s : PipeState) : Bool :=
  allKeys.all (fun k => (s.phases k).status == .completed)

/-! ## executePhase (pipeline.js 220-304) -/

/-- AnalysisPipeline.executePhase(key). If the phase already holds an
in-flight promise it is returned as-is (no event, no new remote call);
otherwise the phase is marked active/stamped, added to activePhases,
phaseStart is emitted and the phase's remote call is issued
synchronously (runPhase runs to its first await before executePhase
returns), with the shared abort signal of the current controller. The
returned Nat is the identity of the in-flight operation handed back to
the caller. The unknown-key rejection branch is unrepresentable because
PhaseKey ranges over exactly the registry. The definition is split into
the payload selection (the synchronous prefix of the per-phase
runXxxAnalysis body choosing the remote call's input), the fresh-launch
body, and the promise-cache dispatch. -/
def freshCallPayload (s : PipeState) (k : PhaseKey) : CallPayload :=
  match k with
  | .company => .companyInput s.companyUrl s.companyFile
  | _ =>
    match s.companyDescription with
    | some d => .description d
    | none => .missingDescription

/-- The fresh-launch body of executePhase (the path taken when no
promise is cached). -/
def execFresh (s : PipeState) (k : PhaseKey) : PipeState × List Event × Nat :=
  let p' : PhaseRec :=
    { s.phases k with
      status := .active, startTime := some (s.now + 1), endTime := none
      error := none
      promise := some { id := s.nextCallId, payload := freshCallPayload s k
                        signalId := s.abortCtrl.map (fun c => c.id) } }
  let s1 := updatePhase s k p'
  ({ s1 with
     activePhases := if k ∈ s1.activePhases then s1.activePhases else s1.activePhases ++ [k]
     nextCallId := s.nextCallId + 1
     now := s1.now + 1 }, [.phaseStart k], s.nextCallId)

def executePhase (s : PipeState) (k : PhaseKey) : PipeState × List Event × Nat :=
  match (s.phases k).promise with
  | some c => (s, [], c.id)
  | none => execFresh s k

/-- The settling of phase k's runPhase continuation when its outstanding
remote call resolves: on success record data, mark completed, stamp
endTime (and, for the gating phase, capture the short company
description from the opaque response); on failure record the error and
mark error; the finally block removes the phase from activePhases and
deletes the cached promise. A phase with no outstanding promise has
nothing to settle; the dispatch on the promise is split from the body
(settleBody) for the same reason as executePhase. -/
def settleBody (s : PipeState) (k : PhaseKey) (o : Except Nat Nat) :
    PipeState × List Event :=
  match o with
  | .ok d =>
    let p' : PhaseRec :=
      { s.phases k with data := some d, status := .completed
                        endTime := some (s.now + 1), promise := none }
    let s1 := updatePhase s k p'
    let s2 := if k = .company then { s1 with companyDescription := some d } else s1
    ({ s2 with activePhases := s2.activePhases.erase k, now := s2.now + 1 },
     [.phaseComplete k])
  | .error e =>
    let p' : PhaseRec :=
      { s.phases k with status := .error, error := some e
                        endTime := some (s.now + 1), promise := none }
    let s1 := updatePhase s k p'
    ({ s1 with activePhases := s1.activePhases.erase k, now := s1.now + 1 },
     [.phaseError k])

def settlePhase (s : PipeState) (k : PhaseKey) (o : Except Nat Nat) :
    PipeState × List Event :=
  match (s.phases k).promise with
  | none => (s, [])
  | some _ => settleBody s k o

/-- The fan-out that start() performs once the gating phase completes:
emit overviewReady, then launch the five cohort phases in registry order
(the array literal of parallelPhases calls executePhase synchronously
for each), then suspend on the allSettled join. -/
def fanStep (acc : PipeState × List Event) (k : PhaseKey) : PipeState × List Event :=
  let r := executePhase acc.1 k
  (r.1, acc.2 ++ r.2.1)

def fanout (s : PipeState) : PipeState × List Event :=
  let folded := cohortKeys.foldl fanStep (s, [])
  ({ folded.1 with control := .awaitingCohort cohortKeys },
   .overviewReady :: folded.2)

/-- AnalysisPipeline.cancel(): with a live controller, abort it and emit
cancelled carrying the first currently-active phase key; with no
controller (no run in flight) nothing happens. -/
def cancelOp (s : PipeState) : PipeState × List Event :=
  match s.abortCtrl with
  | some c => ({ s with abortCtrl := some { c with aborted := true } },
               [.cancelled s.activePhases.head?])
  | none => (s, [])

/-- The finally block of start(): clear isRunning, the controller and
activePhases; the coroutine has returned. -/
def finalizeRun (s : PipeState) : PipeState :=
  { s with isRunning := false, abortCtrl := none, activePhases := [], control := .done }

/-! ## Scheduler steps

The host is single-threaded and cooperative: between awaits execution is
atomic. A run's observable schedule is therefore a list of items, each
either the resolution of one phase's outstanding remote call with an
outcome chosen by the environment, or an external cancel() call. -/

deriving instance DecidableEq for Except

/-- One environment step. -/
inductive Item
  | settle (k : PhaseKey) (o : Except Nat Nat)
  | cancel
deriving DecidableEq, Repr

/-- Process one step against the pipeline: a settle of a phase with no
outstanding call is a no-op (there is no promise to resolve); otherwise
the phase settles and, when the resolved promise is the one the start()
coroutine is awaiting, the coroutine resumes: a gating success fans out
the cohort, a gating failure aborts-if-needed, emits error, rethrows and
finalizes; the last cohort settle resumes the allSettled join, which
classifies the outcome and emits complete (after allComplete) or
partialComplete, then finalizes. -/
def stepItem (s : PipeState) : Item → PipeState × List Event
  | .cancel => cancelOp s
  | .settle k o =>
    match (s.phases k).promise with
    | none => (s, [])
    | some _ =>
      let r := settlePhase s k o
      let s1 := r.1
      match s1.control, k, o with
      | .awaitingCompany, .company, .ok _ =>
        let f := fanout s1
        (f.1, r.2 ++ f.2)
      | .awaitingCompany, .company, .error _ =>
        let s2 :=
          match s1.abortCtrl with
          | some c => if c.aborted then s1 else { s1 with abortCtrl := some { c with aborted := true } }
          | none => s1
        (finalizeRun s2, r.2 ++ [.errorEv])
      | .awaitingCohort rem, k', _ =>
        if k' ∈ rem then
          let rem' := rem.erase k'
          if rem'.isEmpty then
            let evs :=
              if allSucceeded s1 then [.allComplete, .complete (getResults s1)]
              else [.partialComplete (getResults s1) (failedKeys s1)]
            (finalizeRun s1, r.2 ++ evs)
          else ({ s1 with control := .awaitingCohort rem' }, r.2)
        else (s1, r.2)
      | _, _, _ => (s1, r.2)

/-- Fold a schedule, accumulating emitted events. -/
def runItems (s : PipeState) (items : List Item) : PipeState × List Event :=
  items.foldl
    (fun (acc : PipeState × List Event) it =>
      let r := stepItem acc.1 it
      (r.1, acc.2 ++ r.2))
    (s, [])

/-- The states visited along a schedule (including the starting state). -/
def traceStates (s : PipeState) : List Item → List PipeState
  | [] => [s]
  | it :: its => s :: traceStates (stepItem s it).1 its

/-! ## start() entry (pipeline.js 114-215) and the input validator -/

/-- The rejections thrown synchronously by start() and retryPhase(). -/
inductive PipeErr
  | alreadyRunning
  | invalidInput
  | invalidUrl
  | notInErrorState
deriving DecidableEq, Repr

/-- Validators.validateUrl (js/utils/validators.js): trim; reject empty;
prefix https:// unless an http(s):// scheme is already present
(case-insensitively); parse; require a hostname containing a dot.
Returns the normalized (possibly prefixed) URL on success. -/
def validateUrl (u : String) : Option String :=
  let trimmed := jsTrim u
  if trimmed == "" then none
  else
    let validUrl := if (dropSchemeCI trimmed.data).isSome then trimmed else "https://" ++ trimmed
    match parseUrlHost validUrl with
    | some host => if host.data.contains '.' then some validUrl else none
    | none => none

/-- The URL-validation prefix of AnalysisPipeline.start: when a usable
url string is present it must validate (else InvalidUrlError is thrown),
otherwise the stored companyUrl is null. -/
def resolveUrlInput (url : Option String) (hasUrl : Bool) :
    Except PipeErr (Option String) :=
  if hasUrl then
    match validateUrl (url.getD "") with
    | some vu => .ok (some vu)
    | none => .error .invalidUrl
  else .ok none

/-- AnalysisPipeline.start up to its first await: reject when a run is
in flight; require at least one usable input; validate the URL when
present; record the inputs, stamp startTime, create the fresh shared
AbortController, reset every phase, emit start and launch the gating
phase, suspending on its await. -/
def startRun (s : PipeState) (url : Option String) (hasFile : Bool) :
    Except PipeErr (PipeState × List Event) :=
  if s.isRunning then .error .alreadyRunning
  else if !(jsTruthy (url.map jsTrim)) && !hasFile then .error .invalidInput
  else
    match resolveUrlInput url (jsTruthy (url.map jsTrim)) with
    | .error e => .error e
    | .ok companyUrl =>
        let ctrlId := s.nextCtrlId
        let s1 : PipeState :=
          { s with
            companyUrl := companyUrl
            companyFile := hasFile
            companyDescription := none
            startTime := some (s.now + 1)
            abortCtrl := some { id := ctrlId, aborted := false }
            nextCtrlId := ctrlId + 1
            isRunning := true
            activePhases := []
            phases := fun _ => initPhase
            control := .awaitingCompany
            now := s.now + 1 }
        let r := executePhase s1 .company
        .ok (r.1, .start :: r.2.1)

/-! ## retryPhase (pipeline.js 320-339) -/

/-- AnalysisPipeline.retryPhase(key): only a phase in error state is
retry-eligible; a fresh controller is created when none is live; the
phase is reset to pending with its error cleared and its stale promise
deleted, and exactly that phase is re-executed. (The unknown-key
rejection is unrepresentable over PhaseKey.) -/
def retryPhase (s : PipeState) (k : PhaseKey) :
    Except PipeErr (PipeState × List Event × Nat) :=
  if (s.phases k).status != .error then .error .notInErrorState
  else
    let s1 :=
      match s.abortCtrl with
      | none => { s with abortCtrl := some { id := s.nextCtrlId, aborted := false }
                         nextCtrlId := s.nextCtrlId + 1 }
      | some _ => s
    let p := s1.phases k
    let s2 := updatePhase s1 k { p with status := .pending, error := none, promise := none }
    .ok (executePhase s2 k)

/-! ## Outcome classification (spec-side characterization of the
terminal events computed at pipeline.js 189-200, proven against the
step semantics below) -/

/-- The per-phase settle event for an outcome. -/
def settleEvent (k : PhaseKey) (o : Except Nat Nat) : Event :=
  match o with
  | .ok _ => .phaseComplete k
  | .error _ => .phaseError k

/-- The recorded data a cohort outcome leaves behind. -/
def okValue (o : Except Nat Nat) : Option Nat :=
  match o with
  | .ok v => some v
  | .error _ => none

/-- Whether an outcome is a success. -/
def isOkOutcome (o : Except Nat Nat) : Bool :=
  match o with
  | .ok _ => true
  | .error _ => false

/-- The result set of a run whose gating phase produced d and whose
cohort phases settled with outcomes g. -/
def resultsOf (d : Nat) (g : PhaseKey → Except Nat Nat) : List (PhaseKey × Option Nat) :=
  (.company, some d) :: cohortKeys.map (fun k => (k, okValue (g k)))

/-- The terminal events of a gating-success run under cohort outcomes g:
complete (preceded by allComplete) when every cohort phase succeeded,
otherwise partialComplete with the failed phase keys in registry order. -/
def terminalEvents (d : Nat) (g : PhaseKey → Except Nat Nat) : List Event :=
  if cohortKeys.all (fun k => isOkOutcome (g k)) then
    [.allComplete, .complete (resultsOf d g)]
  else
    [.partialComplete (resultsOf d g) (cohortKeys.filter (fun k => !(isOkOutcome (g k))))]

/-! ## Run invariants -/

/-- Every cohort phase untouched: pending with no outstanding call. -/
def CohortPendingAll (s : PipeState) : Prop :=
  ∀ k ∈ cohortKeys, (s.phases k).status = .pending ∧ (s.phases k).promise = none

/-- Every outstanding call in the run was issued with the signal of the
single current AbortController. -/
def SigInv (s : PipeState) : Prop :=
  ∀ k c, (s.phases k).promise = some c →
    ∃ ctrl, s.abortCtrl = some ctrl ∧ c.signalId = some ctrl.id

/-- A completed phase has no outstanding call (runPhase's finally block
deleted the promise when it settled). -/
def CompletedNoPromise (s : PipeState) : Prop :=
  ∀ k, (s.phases k).status = .completed → (s.phases k).promise = none

/-- The control-point invariant of a run in flight, phrased as one
implication per control point. -/
def ControlInv (s : PipeState) : Prop :=
  (s.control ≠ .idle)
  ∧ (s.control = .awaitingCompany → CohortPendingAll s ∧ s.abortCtrl ≠ none)
  ∧ (∀ rem, s.control = .awaitingCohort rem →
      (s.phases .company).status = .completed
      ∧ (s.phases .company).promise = none
      ∧ rem ⊆ cohortKeys
      ∧ (∀ k ∈ cohortKeys, k ∉ rem → (s.phases k).promise = none))
  ∧ (s.control = .done →
      ((s.phases .company).status = .completed ∨ CohortPendingAll s)
      ∧ (∀ k, (s.phases k).promise = none)
      ∧ s.abortCtrl = none)

/-- The reachable-state invariant of a started run. -/
def Inv (s : PipeState) : Prop :=
  SigInv s ∧ CompletedNoPromise s ∧ ControlInv s

/-- The record shape of a cohort phase that settled with outcome o. -/
def settledShape (p : PhaseRec) (o : Except Nat Nat) : Prop :=
  p.promise = none ∧
  match o with
  | .ok v => p.status = .completed ∧ p.data = some v
  | .error e => p.status = .error ∧ p.error = some e ∧ p.data = none

/-- The cohort stage of a gating-success run: the gating phase is
completed with data d, the phases of rem are active with an outstanding
call, and every other cohort phase has settled with its outcome from g. -/
def CohortShape (s : PipeState) (d : Nat) (g : PhaseKey → Except Nat Nat)
    (rem : List PhaseKey) : Prop :=
  s.control = .awaitingCohort rem
  ∧ rem ⊆ cohortKeys
  ∧ rem.Nodup
  ∧ (s.phases .company).status = .completed
  ∧ (s.phases .company).data = some d
  ∧ (s.phases .company).promise = none
  ∧ (∀ k ∈ cohortKeys, k ∈ rem →
      (s.phases k).status = .active ∧ (s.phases k).data = none
      ∧ (s.phases k).promise ≠ none)
  ∧ (∀ k ∈ cohortKeys, k ∉ rem → settledShape (s.phases k) (g k))

/-- The run state while the gating call is outstanding. -/
def GatingWait (s : PipeState) : Prop :=
  s.control = .awaitingCompany
  ∧ (s.phases .company).promise ≠ none
  ∧ CohortPendingAll s
  ∧ s.abortCtrl ≠ none

/-- The terminal state of a run whose gating phase failed: finished,
controller gone, nothing outstanding, cohort untouched. -/
def DoneDead (s : PipeState) : Prop :=
  s.control = .done
  ∧ s.abortCtrl = none
  ∧ (∀ k, (s.phases k).promise = none)
  ∧ CohortPendingAll s
  ∧ s.isRunning = false

/-- The facts established for the fan-out fold over keys L: each phase
of L is active with an outstanding call carrying the short company
description and the shared signal, every other phase and the listed
top-level fields are untouched. -/
def FanFacts (s r : PipeState) (L : List PhaseKey) (d : Nat) (ctrl : Ctrl) : Prop :=
  (∀ k ∈ L, (r.phases k).status = .active
      ∧ (r.phases k).data = (s.phases k).data
      ∧ ∃ ci, (r.phases k).promise = some ci
          ∧ ci.payload = .description d ∧ ci.signalId = some ctrl.id)
  ∧ (∀ j, j ∉ L → r.phases j = s.phases j)
  ∧ r.abortCtrl = s.abortCtrl
  ∧ r.companyDescription = s.companyDescription
  ∧ r.isRunning = s.isRunning

/-! ## Concrete material for witnesses and counterexamples -/

/-- A synthetic archived assessment with key k followed by the index and
the index as timestamp. -/
def mkEntry (i : Nat) : CachedAssessment :=
  { key := "k" ++ toString i, timestamp := i, payload := 0 }

/-- Fifty entries with timestamps 1..50. -/
def c5cache50 : Archive := (List.range 50).map (fun i => mkEntry (i + 1))

/-- The expected archive after the 51st write: entries 2..51. -/
def c5after51 : Archive := (List.range 50).map (fun i => mkEntry (i + 2))

/-- Fifty-two sequential archive writes with distinct keys and strictly
increasing timestamps, starting from an empty archive. -/
def c5seq52 : Archive :=
  (List.range 52).foldl (fun acc i => cacheFullAssessment acc (mkEntry (i + 1))) []

/-- The expected archive after the 52 sequential writes: entries 3..52. -/
def c5after52 : Archive := (List.range 50).map (fun i => mkEntry (i + 3))

/-- A quota oracle admitting at most 20 archive entries. -/
def c6fits : LocalStorage → Archive → Bool := fun _ v => v.length ≤ 20

/-- A checkpoint used by the quota witness. -/
def c6state : CheckpointState :=
  { version := some "2.1", timestamp := 0, status := "in_progress"
    companyInput := none, completedPhases := [], userScores := 0
    scaName := none, smartsheetRowId := none, assessmentKey := none
    finalRecommendation := "", customVentureName := none }

/-- A checkpoint carrying an out-of-series version. -/
def c7badState : CheckpointState := { c6state with version := some "3.0" }

/-- A checkpoint at the recognized older minor version 2.0. -/
def c7oldState : CheckpointState := { c6state with version := some "2.0" }

/-- A storage holding the out-of-series checkpoint. -/
def c7badStore : LocalStorage := { stateSlot := some c7badState, cacheSlot := none }

/-- A storage holding the version-2.0 checkpoint. -/
def c7oldStore : LocalStorage := { stateSlot := some c7oldState, cacheSlot := none }

/-- A storage holding 25 archived entries. -/
def c6store : LocalStorage := ⟨some c6state, some ((List.range 25).map (fun i => mkEntry (i + 1)))⟩

/-- A 26-entry archive whose write will exceed the c6fits quota. -/
def c6bigCache : Archive := (List.range 26).map (fun i => mkEntry (i + 1))

/-- The post-start state of a fresh run on a plain URL, used by several
witnesses. -/
def wStart : PipeState × List Event :=
  match startRun initPipeState (some "https://example.com") false with
  | .ok r => r
  | .error _ => (initPipeState, [])

/-- A run whose gating phase succeeded and whose team phase then failed:
the retry witness state. -/
def c8state : PipeState :=
  (runItems wStart.1 [Item.settle .company (.ok 7), Item.settle .team (.error 3)]).1

/-- The schedule of the cancellation counterexample: gating succeeds,
cancel() arrives mid-cohort, and the five aborted cohort calls then
settle as failures. -/
def c3sched : List Item :=
  [Item.settle .company (.ok 7), Item.cancel]
    ++ cohortKeys.map (fun k => Item.settle k (.error 9))

/-- The full emitted trace of the cancellation counterexample run. -/
def c3trace : List Event :=
  wStart.2 ++ (runItems wStart.1 c3sched).2

/-! # Theorems -/

/-! ## Generic helpers about phase updates -/

theorem phases_updatePhase_self (s : PipeState) (k : PhaseKey) (p : PhaseRec) :
    (updatePhase s k p).phases k = p := by
  simp [updatePhase]

theorem phases_updatePhase_ne (s : PipeState) {j k : PhaseKey} (p : PhaseRec) (h : j ≠ k) :
    (updatePhase s k p).phases j = s.phases j := by
  simp [updatePhase, Function.update_noteq h]

/-! ## C4: assessment-identity derivation -/

/-- C4 counterexample: the claim says a URL-derived identifier is the
parsed host with any LEADING "www." stripped, but the source removes the
first occurrence of "www." anywhere in the host: for the host
notwww.example.com (no leading www.) the derived key drops the inner
"www.", differing from the claim's identifier. -/
theorem c4_counterexample :
    generateAssessmentKey (some "https://notwww.example.com") (some "op") none
      = "notexample.com_op"
    ∧ claimIdentifierOfHost "notwww.example.com" = "notwww.example.com"
    ∧ claimIdentifierOfHost "notwww.example.com" ++ "_" ++ normalizedAdvisor (some "op")
      = "notwww.example.com_op"
    ∧ ("notexample.com_op" : String) ≠ "notwww.example.com_op" := by
  refine ⟨by decide, by decide, by decide, by decide⟩

/-- C4 (amended): the identity derivation is a pure function of its
inputs: with a parseable URL the identifier is the parsed host with the
FIRST occurrence of the substring "www." (anywhere in the host) removed;
with only a file name it is the file name with its extension stripped,
lowercased and non-alphanumerics mapped to hyphens; with neither it is
empty; the operator name is normalized the same way with an "unknown"
default; the key is identifier ++ "_" ++ operator, and the normalized
URLs https://Example.com/ and example.com yield the identical key. -/
theorem c4_key_derivation :
    (∀ u op fn host, u ≠ "" →
      parseUrlHost (if jsStartsWith u "http" then u else "https://" ++ u) = some host →
      generateAssessmentKey (some u) op fn
        = jsReplaceFirst host "www." "" ++ "_" ++ normalizedAdvisor op)
    ∧ (∀ op f, f ≠ "" →
      generateAssessmentKey none op (some f)
        = normalizeHyphens (jsToLower (stripExtension f)) ++ "_" ++ normalizedAdvisor op)
    ∧ (∀ op, generateAssessmentKey none op none = "" ++ "_" ++ normalizedAdvisor op)
    ∧ generateAssessmentKey (some "https://Example.com/") (some "Op") none
        = generateAssessmentKey (some "example.com") (some "Op") none
    ∧ generateAssessmentKey (some "https://www.example.com") (some "op") none
        = "example.com_op" := by
  refine ⟨?_, ?_, ?_, by decide, by decide⟩
  · intro u op fn host hu hp
    simp [generateAssessmentKey, jsTruthy, bne_iff_ne, hu, hp]
  · intro op f hf
    simp [generateAssessmentKey, jsTruthy, bne_iff_ne, hf]
  · intro op
    simp [generateAssessmentKey, jsTruthy]

/-- C4 witness: the URL branch of the derivation at a concrete input. -/
theorem c4_key_derivation_witness :
    generateAssessmentKey (some "example.com") (some "Op") none
      = jsReplaceFirst "example.com" "www." "" ++ "_" ++ normalizedAdvisor (some "Op") :=
  c4_key_derivation.1 "example.com" (some "Op") none "example.com" (by decide) (by decide)

/-! ## C7: checkpoint version validation and migration -/

/-- C7: a read of a checkpoint whose present, nonempty version lies
outside the 2.x series clears the stored checkpoint and returns null;
and the migration routine upgrades a 2.0 checkpoint (whose
newly-introduced fields are absent) in place, setting exactly version
(to 2.1), smartsheetRowId and assessmentKey (to null) and leaving every
other field unchanged. -/
theorem c7_version_validation :
    (∀ st s v, st.stateSlot = some s → s.version = some v → v ≠ "" →
      jsStartsWith v "2." = false →
      getState st = (none, { st with stateSlot := none }))
    ∧ (∀ st s, st.stateSlot = some s → s.version = some "2.0" →
      s.smartsheetRowId = none → s.assessmentKey = none →
      migrateIfNeeded st
        = { st with stateSlot := some ({ s with
                     version := some managerVersion
                     smartsheetRowId := none
                     assessmentKey := none }) }) := by
  constructor
  · intro st s v hslot hv hne hns
    simp [getState, hslot, hv, jsTruthy, bne_iff_ne, hne, hns]
  · intro st s hslot hv hrow hkey
    have hsw : jsStartsWith "2.0" "2." = true := by decide
    simp [migrateIfNeeded, getState, hslot, hv, jsTruthy, hsw, saveState, hrow, hkey]

/-- C7 witness: both branches exercised at concrete checkpoints. -/
theorem c7_version_validation_witness :
    getState c7badStore = (none, { c7badStore with stateSlot := none })
    ∧ migrateIfNeeded c7oldStore
      = { c7oldStore with stateSlot := some ({ c7oldState with
                            version := some managerVersion
                            smartsheetRowId := none
                            assessmentKey := none }) } := by
  constructor
  · exact c7_version_validation.1 c7badStore c7badState "3.0" rfl rfl (by decide) (by decide)
  · exact c7_version_validation.2 c7oldStore c7oldState rfl rfl rfl rfl

/-! ## C5 helpers: the eviction sort and its properties -/

theorem insertByTs_perm (a : CachedAssessment) (l : Archive) :
    List.Perm (insertByTs a l) (a :: l) := by
  induction l with
  | nil => simp [insertByTs]
  | cons b bs ih =>
    by_cases h : b.timestamp < a.timestamp
    · simp only [insertByTs, if_pos h]
      exact ((ih.cons b).trans (List.Perm.swap a b bs))
    · simp [insertByTs, if_neg h]

theorem sortByTs_perm (l : Archive) : List.Perm (sortByTs l) l := by
  induction l with
  | nil => simp [sortByTs]
  | cons a rest ih =>
    exact (insertByTs_perm a (sortByTs rest)).trans (ih.cons a)

theorem insertByTs_pairwise (a : CachedAssessment) (l : Archive)
    (h : l.Pairwise (fun x y => x.timestamp ≤ y.timestamp)) :
    (insertByTs a l).Pairwise (fun x y => x.timestamp ≤ y.timestamp) := by
  induction l with
  | nil => simp [insertByTs]
  | cons b bs ih =>
    rcases List.pairwise_cons.mp h with ⟨hb, hbs⟩
    by_cases hlt : b.timestamp < a.timestamp
    · simp only [insertByTs, if_pos hlt]
      refine List.pairwise_cons.mpr ⟨?_, ih hbs⟩
      intro x hx
      rcases List.mem_cons.mp ((insertByTs_perm a bs).mem_iff.mp hx) with hxa | hxbs
      · exact hxa ▸ Nat.le_of_lt hlt
      · exact hb x hxbs
    · simp only [insertByTs, if_neg hlt]
      refine List.pairwise_cons.mpr ⟨?_, h⟩
      intro x hx
      rcases List.mem_cons.mp hx with hxb | hxbs
      · exact hxb ▸ Nat.le_of_not_lt hlt
      · exact Nat.le_trans (Nat.le_of_not_lt hlt) (hb x hxbs)

theorem sortByTs_pairwise (l : Archive) :
    (sortByTs l).Pairwise (fun x y => x.timestamp ≤ y.timestamp) := by
  induction l with
  | nil => simp [sortByTs]
  | cons a rest ih => exact insertByTs_pairwise a (sortByTs rest) ih

/-- Filtering a key-distinct concatenation against the keys of its
first block keeps exactly the second block. -/
theorem filter_notin_prefix (pre suf : Archive)
    (hkn : ((pre ++ suf).map (fun e => e.key)).Nodup) :
    (pre ++ suf).filter (fun e => !(pre.map (fun x => x.key)).contains e.key) = suf := by
  have hnodup : (pre ++ suf).Nodup := hkn.of_map
  rw [List.filter_append]
  have h1 : pre.filter (fun e => !(pre.map (fun x => x.key)).contains e.key) = [] := by
    refine List.filter_eq_nil_iff.mpr ?_
    intro e he
    have hmem : e.key ∈ pre.map (fun x => x.key) := List.mem_map_of_mem _ he
    simp [hmem]
  have h2 : suf.filter (fun e => !(pre.map (fun x => x.key)).contains e.key) = suf := by
    refine List.filter_eq_self.mpr ?_
    intro e he
    have hkey : e.key ∉ pre.map (fun x => x.key) := by
      intro hcon
      rcases List.mem_map.mp hcon with ⟨d, hd, hdk⟩
      have hde : d = e :=
        List.inj_on_of_nodup_map hkn (List.mem_append_left _ hd)
          (List.mem_append_right _ he) hdk
      exact (List.nodup_append.mp hnodup).2.2 (hde ▸ hd) he
    simp [hkey]
  rw [h1, h2, List.nil_append]

/-- The eviction filter over an m-prefix of a key-distinct list keeps
exactly the entries beyond position m. -/
theorem filter_not_doomed (l : Archive) (m : Nat)
    (hkn : (l.map (fun e => e.key)).Nodup) :
    l.filter (fun e => !((l.take m).map (fun x => x.key)).contains e.key) = l.drop m := by
  have hkn2 : ((l.take m ++ l.drop m).map (fun e => e.key)).Nodup := by
    rw [List.take_append_drop]
    exact hkn
  have h := filter_notin_prefix (l.take m) (l.drop m) hkn2
  rwa [List.take_append_drop] at h

/-- Eviction leaves min(length, cap) entries when keys are distinct. -/
theorem evictOldest_length (cache : Archive) (cap : Nat)
    (hk : (cache.map (fun e => e.key)).Nodup) :
    (evictOldest cache cap).length = min cache.length cap := by
  by_cases hlen : cache.length > cap
  · have hperm : List.Perm (sortByTs cache) cache := sortByTs_perm cache
    have hkn : ((sortByTs cache).map (fun e => e.key)).Nodup :=
      ((hperm.map (fun e => e.key)).symm).nodup hk
    have hchar := filter_not_doomed (sortByTs cache) (cache.length - cap) hkn
    have hlenp :
        ((sortByTs cache).filter
          (fun e => !(((sortByTs cache).take (cache.length - cap)).map (fun x => x.key)).contains e.key)).length
        = (cache.filter
            (fun e => !(((sortByTs cache).take (cache.length - cap)).map (fun x => x.key)).contains e.key)).length :=
      (hperm.filter _).length_eq
    have hslen : (sortByTs cache).length = cache.length := hperm.length_eq
    simp only [evictOldest, if_pos hlen]
    rw [← hlenp, hchar, List.length_drop, hslen, Nat.min_def]
    split <;> omega
  · simp only [evictOldest, if_neg hlen]
    rw [Nat.min_def]
    split <;> omega

/-- Eviction removes oldest-by-timestamp entries first: any evicted
entry has a timestamp at most that of any survivor (keys distinct). -/
theorem evictOldest_oldest_first (cache : Archive) (cap : Nat)
    (hk : (cache.map (fun e => e.key)).Nodup) :
    ∀ e ∈ cache, e ∉ evictOldest cache cap →
      ∀ x ∈ evictOldest cache cap, e.timestamp ≤ x.timestamp := by
  intro e he hnot x hx
  by_cases hlen : cache.length > cap
  · simp only [evictOldest, if_pos hlen] at hnot hx
    have hperm : List.Perm (sortByTs cache) cache := sortByTs_perm cache
    have hkn : ((sortByTs cache).map (fun y => y.key)).Nodup :=
      ((hperm.map (fun y => y.key)).symm).nodup hk
    have hetake : e ∈ (sortByTs cache).take (cache.length - cap) := by
      have hpe : (!(((sortByTs cache).take (cache.length - cap)).map (fun x => x.key)).contains e.key)
          = false := by
        by_contra hcon
        refine hnot (List.mem_filter.mpr ⟨he, ?_⟩)
        cases h : (!(((sortByTs cache).take (cache.length - cap)).map (fun x => x.key)).contains e.key) with
        | true => rfl
        | false => exact absurd h hcon
      have hmem : e.key ∈ ((sortByTs cache).take (cache.length - cap)).map (fun x => x.key) := by
        simpa using hpe
      rcases List.mem_map.mp hmem with ⟨d, hd, hdk⟩
      have hdmem : d ∈ sortByTs cache := by
        have hsub : List.Sublist ((sortByTs cache).take (cache.length - cap)) (sortByTs cache) :=
          List.take_sublist _ _
        exact hsub.mem hd
      have hde : d = e :=
        List.inj_on_of_nodup_map hkn hdmem (hperm.mem_iff.mpr he) hdk
      exact hde ▸ hd
    have hxdrop : x ∈ (sortByTs cache).drop (cache.length - cap) := by
      have hxc : x ∈ cache := (List.filter_sublist _).mem hx
      have hxs : x ∈ (sortByTs cache).take (cache.length - cap)
          ++ (sortByTs cache).drop (cache.length - cap) := by
        rw [List.take_append_drop]
        exact hperm.mem_iff.mpr hxc
      have hpx := List.of_mem_filter hx
      rcases List.mem_append.mp hxs with h | h
      · exfalso
        have hxk : x.key ∈ ((sortByTs cache).take (cache.length - cap)).map (fun y => y.key) :=
          List.mem_map_of_mem _ h
        rw [List.map_take] at hxk
        simp [hxk] at hpx
      · exact h
    exact (sortByTs_pairwise cache).rel_of_mem_take_of_mem_drop hetake hxdrop
  · simp only [evictOldest, if_neg hlen] at hnot
    exact absurd he hnot

/-- Upserting preserves distinctness of the archive's keys. -/
theorem cacheUpsert_keys_nodup (cache : Archive) (a : CachedAssessment)
    (hk : (cache.map (fun e => e.key)).Nodup) :
    ((cacheUpsert cache a).map (fun e => e.key)).Nodup := by
  by_cases hmem : cache.any (fun e => e.key == a.key)
  · have heq : (cache.map (fun e => if e.key == a.key then a else e)).map (fun e => e.key)
        = cache.map (fun e => e.key) := by
      rw [List.map_map]
      refine List.map_congr_left ?_
      intro e _
      by_cases h : e.key == a.key
      · simp only [Function.comp, h, if_pos]
        exact (eq_of_beq h).symm
      · simp [Function.comp, h]
    simp only [cacheUpsert, if_pos hmem]
    rw [heq]
    exact hk
  · have hnot : a.key ∉ cache.map (fun e => e.key) := by
      intro hcon
      rcases List.mem_map.mp hcon with ⟨e, he, hek⟩
      exact hmem (List.any_eq_true.mpr ⟨e, he, by simp [hek]⟩)
    simp only [cacheUpsert, if_neg hmem]
    rw [List.map_append]
    exact List.nodup_append.mpr ⟨hk, by simp, by simpa [List.disjoint_singleton] using hnot⟩

/-! ## C5: archive retention cap and oldest-first eviction -/

set_option maxRecDepth 40000

/-- C5: after every archive write the archive holds at most 50 entries,
eviction is oldest-by-timestamp first, and the two concrete scenarios of
the claim hold: a 51st distinct-key write evicts exactly the single
oldest entry leaving entries 2..51, and 52 sequential distinct-key
strictly-increasing-timestamp writes leave exactly the 50 newest with
the two oldest absent. -/
theorem c5_archive_retention :
    (∀ (cache : Archive) (a : CachedAssessment),
      (cache.map (fun e => e.key)).Nodup →
      (cacheFullAssessment cache a).length ≤ 50
      ∧ (∀ e ∈ cacheUpsert cache a, e ∉ cacheFullAssessment cache a →
          ∀ x ∈ cacheFullAssessment cache a, e.timestamp ≤ x.timestamp))
    ∧ cacheFullAssessment c5cache50 (mkEntry 51) = c5after51
    ∧ c5after51.length = 50
    ∧ mkEntry 1 ∉ c5after51
    ∧ c5seq52 = c5after52
    ∧ c5after52.length = 50
    ∧ mkEntry 1 ∉ c5after52 ∧ mkEntry 2 ∉ c5after52 := by
  refine ⟨?_, by decide, by decide, by decide, by decide, by decide, by decide, by decide⟩
  intro cache a hk
  have hk2 := cacheUpsert_keys_nodup cache a hk
  constructor
  · have hl := evictOldest_length (cacheUpsert cache a) 50 hk2
    unfold cacheFullAssessment
    rw [hl, Nat.min_def]
    split <;> omega
  · exact evictOldest_oldest_first (cacheUpsert cache a) 50 hk2

/-- C5 witness: the universal retention bound applied to the concrete
50-entry archive. -/
theorem c5_archive_retention_witness :
    (cacheFullAssessment c5cache50 (mkEntry 51)).length ≤ 50
    ∧ (∀ e ∈ cacheUpsert c5cache50 (mkEntry 51),
        e ∉ cacheFullAssessment c5cache50 (mkEntry 51) →
        ∀ x ∈ cacheFullAssessment c5cache50 (mkEntry 51), e.timestamp ≤ x.timestamp) :=
  c5_archive_retention.1 c5cache50 (mkEntry 51) (by decide)

/-! ## C6: quota handling on archive writes -/

theorem saveAssessmentCache_succ (fits : LocalStorage → Archive → Bool)
    (fuel : Nat) (st : LocalStorage) (cache : Archive) :
    saveAssessmentCache fits (fuel + 1) st cache
      = match trySetCache fits st cache with
        | some st1 => (st1, 1)
        | none =>
          match trySetCache fits (pruneAssessmentCache fits fuel st) cache with
          | some st2 => (st2, 2)
          | none => (pruneAssessmentCache fits fuel st, 2) := rfl

theorem pruneAssessmentCache_succ (fits : LocalStorage → Archive → Bool)
    (fuel : Nat) (st : LocalStorage) :
    pruneAssessmentCache fits (fuel + 1) st
      = if (st.cacheSlot.getD []).length > 20
        then (saveAssessmentCache fits fuel st (evictOldest (st.cacheSlot.getD []) 20)).1
        else st := rfl

/-- C6: a quota-rejected archive write prunes the stored archive down to
its 20 most-recent entries (oldest-by-timestamp evicted), retries the
same write exactly once (attempt count 2), keeps the checkpoint slot —
the in-memory session — untouched, and in every case returns instead of
propagating an exception: on a successful retry the full cache is
stored, otherwise the write is abandoned with the pruned archive left in
place. Stated under the claim's own scenario: the stored archive
exceeds 20 entries with distinct keys and the pruned archive itself fits
(otherwise the JS recurses into further pruning). -/
theorem c6_quota_prune_retry :
    ∀ (fits : LocalStorage → Archive → Bool) (st : LocalStorage) (cache : Archive),
      fits st cache = false →
      ((st.cacheSlot.getD []).map (fun e => e.key)).Nodup →
      (st.cacheSlot.getD []).length > 20 →
      fits st (evictOldest (st.cacheSlot.getD []) 20) = true →
      saveAssessmentCache fits 3 st cache
        = (if fits { st with cacheSlot := some (evictOldest (st.cacheSlot.getD []) 20) } cache
           then ({ st with cacheSlot := some cache }, 2)
           else ({ st with cacheSlot := some (evictOldest (st.cacheSlot.getD []) 20) }, 2))
      ∧ (evictOldest (st.cacheSlot.getD []) 20).length = 20
      ∧ (saveAssessmentCache fits 3 st cache).1.stateSlot = st.stateSlot
      ∧ (∀ e ∈ st.cacheSlot.getD [], e ∉ evictOldest (st.cacheSlot.getD []) 20 →
          ∀ x ∈ evictOldest (st.cacheSlot.getD []) 20, e.timestamp ≤ x.timestamp) := by
  intro fits st cache h1 hk h2 h4
  have hset0 : trySetCache fits st cache = none := by
    simp [trySetCache, h1]
  have hset1 : trySetCache fits st (evictOldest (st.cacheSlot.getD []) 20)
      = some { st with cacheSlot := some (evictOldest (st.cacheSlot.getD []) 20) } := by
    simp [trySetCache, h4]
  have hp : pruneAssessmentCache fits 2 st
      = { st with cacheSlot := some (evictOldest (st.cacheSlot.getD []) 20) } := by
    rw [pruneAssessmentCache_succ, if_pos h2, saveAssessmentCache_succ, hset1]
  have hmain : saveAssessmentCache fits 3 st cache
      = match trySetCache fits ({ st with cacheSlot := some (evictOldest (st.cacheSlot.getD []) 20) }) cache with
        | some st2 => (st2, 2)
        | none => ({ st with cacheSlot := some (evictOldest (st.cacheSlot.getD []) 20) }, 2) := by
    rw [saveAssessmentCache_succ, hset0, hp]
  have hcap : (evictOldest (st.cacheSlot.getD []) 20).length = 20 := by
    have := evictOldest_length (st.cacheSlot.getD []) 20 hk
    rw [this, Nat.min_def]
    split <;> omega
  refine ⟨?_, hcap, ?_, evictOldest_oldest_first (st.cacheSlot.getD []) 20 hk⟩
  · rw [hmain]
    by_cases hb : fits { st with cacheSlot := some (evictOldest (st.cacheSlot.getD []) 20) } cache
    · simp [trySetCache, hb]
    · simp [trySetCache, hb]
  · rw [hmain]
    by_cases hb : fits { st with cacheSlot := some (evictOldest (st.cacheSlot.getD []) 20) } cache
    · simp [trySetCache, hb]
    · simp [trySetCache, hb]

/-- C6 witness: a 26-entry write against a 25-entry stored archive under
a 20-entry quota: the write is rejected, the archive is pruned to the 20
most recent, the retry is rejected again and abandoned softly. -/
theorem c6_quota_prune_retry_witness :
    saveAssessmentCache c6fits 3 c6store c6bigCache
      = (if c6fits { c6store with cacheSlot := some (evictOldest (c6store.cacheSlot.getD []) 20) } c6bigCache
         then ({ c6store with cacheSlot := some c6bigCache }, 2)
         else ({ c6store with cacheSlot := some (evictOldest (c6store.cacheSlot.getD []) 20) }, 2))
    ∧ (evictOldest (c6store.cacheSlot.getD []) 20).length = 20
    ∧ (saveAssessmentCache c6fits 3 c6store c6bigCache).1.stateSlot = c6store.stateSlot
    ∧ (∀ e ∈ c6store.cacheSlot.getD [], e ∉ evictOldest (c6store.cacheSlot.getD []) 20 →
        ∀ x ∈ evictOldest (c6store.cacheSlot.getD []) 20, e.timestamp ≤ x.timestamp) :=
  c6_quota_prune_retry c6fits c6store c6bigCache (by decide) (by decide) (by decide) (by decide)

/-! ## Pipeline step equations and frame lemmas -/

theorem execFresh_eq (s : PipeState) (k : PhaseKey) :
    execFresh s k
      = ({ s with
           phases := Function.update s.phases k
             { s.phases k with
               status := .active
               startTime := some (s.now + 1)
               endTime := none
               error := none
               promise := some { id := s.nextCallId, payload := freshCallPayload s k
                                 signalId := s.abortCtrl.map (fun c => c.id) } }
           activePhases := if k ∈ s.activePhases then s.activePhases else s.activePhases ++ [k]
           nextCallId := s.nextCallId + 1
           now := s.now + 1 }, [.phaseStart k], s.nextCallId) := rfl

theorem settleBody_ok_eq (s : PipeState) (k : PhaseKey) (d : Nat) :
    settleBody s k (.ok d)
      = ({ s with
           phases := Function.update s.phases k
             { s.phases k with
               data := some d
               status := .completed
               endTime := some (s.now + 1)
               promise := none }
           companyDescription := if k = .company then some d else s.companyDescription
           activePhases := s.activePhases.erase k
           now := s.now + 1 }, [.phaseComplete k]) := by
  by_cases hk : k = .company
  · subst hk
    simp [settleBody, updatePhase]
  · simp [settleBody, updatePhase, hk]

theorem settleBody_err_eq (s : PipeState) (k : PhaseKey) (e : Nat) :
    settleBody s k (.error e)
      = ({ s with
           phases := Function.update s.phases k
             { s.phases k with
               status := .error
               error := some e
               endTime := some (s.now + 1)
               promise := none }
           activePhases := s.activePhases.erase k
           now := s.now + 1 }, [.phaseError k]) := rfl

theorem stepItem_settle_noPromise (s : PipeState) (k : PhaseKey) (o : Except Nat Nat)
    (h : (s.phases k).promise = none) :
    stepItem s (.settle k o) = (s, []) := by
  simp [stepItem, h]

theorem stepItem_cancel_eq (s : PipeState) : stepItem s .cancel = cancelOp s := rfl

theorem runItems_nil (s : PipeState) : runItems s [] = (s, []) := rfl

theorem runItems_acc (items : List Item) :
    ∀ (s : PipeState) (ev0 : List Event),
      items.foldl (fun (acc : PipeState × List Event) it =>
          let r := stepItem acc.1 it
          (r.1, acc.2 ++ r.2)) (s, ev0)
        = ((runItems s items).1, ev0 ++ (runItems s items).2) := by
  induction items with
  | nil => intro s ev0; simp [runItems]
  | cons it its ih =>
    intro s ev0
    show List.foldl _ ((stepItem s it).1, ev0 ++ (stepItem s it).2) its = _
    rw [ih]
    have hr : runItems s (it :: its)
        = ((runItems (stepItem s it).1 its).1,
           ([] ++ (stepItem s it).2) ++ (runItems (stepItem s it).1 its).2) := by
      show List.foldl _ ((stepItem s it).1, [] ++ (stepItem s it).2) its = _
      rw [ih]
    rw [hr]
    simp

theorem runItems_cons (s : PipeState) (it : Item) (its : List Item) :
    runItems s (it :: its)
      = ((runItems (stepItem s it).1 its).1,
         (stepItem s it).2 ++ (runItems (stepItem s it).1 its).2) := by
  show List.foldl _ ((stepItem s it).1, [] ++ (stepItem s it).2) its = _
  rw [runItems_acc]
  simp

/-! ## More pipeline frame lemmas -/

theorem settleBody_control (s : PipeState) (k : PhaseKey) (o : Except Nat Nat) :
    (settleBody s k o).1.control = s.control := by
  cases o <;> simp [settleBody_ok_eq, settleBody_err_eq]

theorem settleBody_abortCtrl (s : PipeState) (k : PhaseKey) (o : Except Nat Nat) :
    (settleBody s k o).1.abortCtrl = s.abortCtrl := by
  cases o <;> simp [settleBody_ok_eq, settleBody_err_eq]

theorem settleBody_isRunning (s : PipeState) (k : PhaseKey) (o : Except Nat Nat) :
    (settleBody s k o).1.isRunning = s.isRunning := by
  cases o <;> simp [settleBody_ok_eq, settleBody_err_eq]

theorem settleBody_phases_ne (s : PipeState) (k : PhaseKey) (o : Except Nat Nat)
    {j : PhaseKey} (h : j ≠ k) :
    (settleBody s k o).1.phases j = s.phases j := by
  cases o <;> simp [settleBody_ok_eq, settleBody_err_eq, Function.update_noteq h]

theorem settleBody_promise_self (s : PipeState) (k : PhaseKey) (o : Except Nat Nat) :
    ((settleBody s k o).1.phases k).promise = none := by
  cases o <;> simp [settleBody_ok_eq, settleBody_err_eq]

theorem freshCallPayload_cohort (s : PipeState) (k : PhaseKey) (d : Nat)
    (hk : k ≠ .company) (hd : s.companyDescription = some d) :
    freshCallPayload s k = .description d := by
  cases k
  case company => exact absurd rfl hk
  all_goals simp [freshCallPayload, hd]

/-! ## The shape of a freshly started run -/

theorem startRun_shape (s : PipeState) (url : Option String) (hf : Bool)
    (s0 : PipeState) (ev0 : List Event)
    (h : startRun s url hf = .ok (s0, ev0)) :
    ev0 = [.start, .phaseStart .company]
    ∧ s0.control = .awaitingCompany
    ∧ s0.isRunning = true
    ∧ s0.abortCtrl = some { id := s.nextCtrlId, aborted := false }
    ∧ (s0.phases .company).status = .active
    ∧ (s0.phases .company).data = none
    ∧ (∃ ci, (s0.phases .company).promise = some ci ∧ ci.signalId = some s.nextCtrlId)
    ∧ s0.companyDescription = none
    ∧ (∀ k, k ≠ .company → s0.phases k = initPhase)
    ∧ s0.activePhases = [.company] := by
  unfold startRun at h
  split at h
  · simp at h
  split at h
  · simp at h
  split at h
  · simp at h
  · simp only [Except.ok.injEq, Prod.mk.injEq] at h
    obtain ⟨hs0, hev⟩ := h
    subst hs0
    subst hev
    refine ⟨rfl, rfl, rfl, rfl, ?_, ?_, ?_, rfl, ?_, ?_⟩
    · simp [executePhase, execFresh_eq, initPhase, updatePhase]
    · simp [executePhase, execFresh_eq, initPhase, updatePhase]
    · simp only [executePhase, execFresh_eq, initPhase, updatePhase]
      rw [Function.update_same]
      exact ⟨_, rfl, by simp⟩
    · intro k hk
      simp [executePhase, execFresh_eq, updatePhase, Function.update_noteq hk, initPhase]
    · simp [executePhase, execFresh_eq, initPhase, updatePhase]

/-! ## The cohort fan-out and its facts -/

theorem fanout_fold_facts (L : List PhaseKey) :
    ∀ (s : PipeState) (ev0 : List Event) (d : Nat) (ctrl : Ctrl),
      L.Nodup →
      PhaseKey.company ∉ L →
      (∀ k ∈ L, (s.phases k).promise = none) →
      s.companyDescription = some d →
      s.abortCtrl = some ctrl →
      FanFacts s (L.foldl fanStep (s, ev0)).1 L d ctrl
      ∧ (L.foldl fanStep (s, ev0)).1.control = s.control
      ∧ (L.foldl fanStep (s, ev0)).2 = ev0 ++ L.map Event.phaseStart := by
  induction L with
  | nil =>
    intro s ev0 d ctrl _ _ _ _ _
    refine ⟨⟨?_, ?_, rfl, rfl, rfl⟩, rfl, by simp⟩
    · intro k hk
      exact absurd hk (List.not_mem_nil k)
    · intro j _
      rfl
  | cons k L' ih =>
    intro s ev0 d ctrl hnd hnc hpr hd hc
    have hkL : k ∉ L' := (List.nodup_cons.mp hnd).1
    have hnd' : L'.Nodup := (List.nodup_cons.mp hnd).2
    have hnc' : PhaseKey.company ∉ L' := fun hm => hnc (List.mem_cons_of_mem k hm)
    have hkc : k ≠ .company := fun he => hnc (he ▸ List.mem_cons_self k L')
    have hk0 : (s.phases k).promise = none := hpr k (List.mem_cons_self k L')
    have hstep : fanStep (s, ev0) k = ((execFresh s k).1, ev0 ++ [.phaseStart k]) := by
      simp [fanStep, executePhase, hk0, execFresh_eq]
    have hEne : ∀ j, j ≠ k → (execFresh s k).1.phases j = s.phases j := by
      intro j hj
      simp [execFresh_eq, Function.update_noteq hj]
    have hEself : (execFresh s k).1.phases k
        = { s.phases k with
            status := .active
            startTime := some (s.now + 1)
            endTime := none
            error := none
            promise := some { id := s.nextCallId, payload := freshCallPayload s k
                              signalId := s.abortCtrl.map (fun c => c.id) } } := by
      simp [execFresh_eq]
    have hpr' : ∀ j ∈ L', ((execFresh s k).1.phases j).promise = none := by
      intro j hj
      rw [hEne j (fun he => hkL (he ▸ hj))]
      exact hpr j (List.mem_cons_of_mem k hj)
    have hd' : (execFresh s k).1.companyDescription = some d := by
      rw [show (execFresh s k).1.companyDescription = s.companyDescription from by
        simp [execFresh_eq]]
      exact hd
    have hc' : (execFresh s k).1.abortCtrl = some ctrl := by
      rw [show (execFresh s k).1.abortCtrl = s.abortCtrl from by simp [execFresh_eq]]
      exact hc
    obtain ⟨⟨ihph, ihfr, ihctl2, ihdesc, ihrun⟩, ihctl, ihev⟩ :=
      ih (execFresh s k).1 (ev0 ++ [.phaseStart k]) d ctrl hnd' hnc' hpr' hd' hc'
    rw [List.foldl_cons, hstep]
    refine ⟨⟨?_, ?_, ?_, ?_, ?_⟩, ?_, ?_⟩
    · intro k0 hk0m
      rcases List.mem_cons.mp hk0m with rfl | hk0L
      · have hfr := ihfr k0 hkL
        rw [hfr, hEself]
        refine ⟨rfl, rfl, ?_⟩
        refine ⟨_, rfl, ?_, ?_⟩
        · exact freshCallPayload_cohort s k0 d hkc hd
        · rw [hc]
          rfl
      · obtain ⟨hst, hdat, hprom⟩ := ihph k0 hk0L
        refine ⟨hst, ?_, hprom⟩
        rw [hdat, hEne k0 (fun he => hkL (he ▸ hk0L))]
    · intro j hj
      have hj1 : j ∉ L' := fun hm => hj (List.mem_cons_of_mem k hm)
      have hj2 : j ≠ k := fun he => hj (he ▸ List.mem_cons_self k L')
      rw [ihfr j hj1, hEne j hj2]
    · rw [ihctl2]
      simp [execFresh_eq]
    · rw [ihdesc]
      simp [execFresh_eq]
    · rw [ihrun]
      simp [execFresh_eq]
    · rw [ihctl]
      simp [execFresh_eq]
    · rw [ihev]
      simp

theorem fanout_facts (s : PipeState) (d : Nat) (ctrl : Ctrl)
    (hpr : ∀ k ∈ cohortKeys, (s.phases k).promise = none)
    (hd : s.companyDescription = some d)
    (hc : s.abortCtrl = some ctrl) :
    FanFacts s (fanout s).1 cohortKeys d ctrl
    ∧ (fanout s).1.control = .awaitingCohort cohortKeys
    ∧ (fanout s).2 = .overviewReady :: cohortKeys.map Event.phaseStart := by
  obtain ⟨⟨ihph, ihfr, ihctl2, ihdesc, ihrun⟩, _, ihev⟩ :=
    fanout_fold_facts cohortKeys s [] d ctrl (by decide) (by decide) hpr hd hc
  refine ⟨⟨ihph, ihfr, ihctl2, ihdesc, ihrun⟩, rfl, ?_⟩
  show Event.overviewReady :: (cohortKeys.foldl fanStep (s, [])).2 = _
  rw [ihev]
  simp

/-! ## stepItem scenario equations -/

theorem stepItem_company_ok (s : PipeState) (d : Nat)
    (hctl : s.control = .awaitingCompany)
    (hpr : (s.phases .company).promise ≠ none) :
    stepItem s (.settle .company (.ok d))
      = ((fanout (settleBody s .company (.ok d)).1).1,
         [.phaseComplete .company] ++ (fanout (settleBody s .company (.ok d)).1).2) := by
  cases hp : (s.phases .company).promise with
  | none => exact absurd hp hpr
  | some c =>
    have hctl1 : (settleBody s .company (.ok d)).1.control = .awaitingCompany := by
      rw [settleBody_control, hctl]
    simp only [stepItem, hp, settlePhase]
    rw [hctl1]
    simp [settleBody_ok_eq]

theorem finalizeRun_eq_of_abortCtrl_irrelevant (s1 s2 : PipeState)
    (h : s1 = { s2 with abortCtrl := s1.abortCtrl }) :
    finalizeRun s1 = finalizeRun s2 := by
  rw [h]
  simp [finalizeRun]

theorem stepItem_company_err (s : PipeState) (e : Nat)
    (hctl : s.control = .awaitingCompany)
    (hpr : (s.phases .company).promise ≠ none) :
    stepItem s (.settle .company (.error e))
      = (finalizeRun (settleBody s .company (.error e)).1,
         [.phaseError .company, .errorEv]) := by
  cases hp : (s.phases .company).promise with
  | none => exact absurd hp hpr
  | some c =>
    have hctl1 : (settleBody s .company (.error e)).1.control = .awaitingCompany := by
      rw [settleBody_control, hctl]
    simp only [stepItem, hp, settlePhase]
    rw [hctl1]
    simp only [settleBody_err_eq]
    cases hac : ({ s with
        phases := Function.update s.phases PhaseKey.company
          { s.phases PhaseKey.company with
            status := .error
            error := some e
            endTime := some (s.now + 1)
            promise := none }
        activePhases := s.activePhases.erase PhaseKey.company
        now := s.now + 1 } : PipeState).abortCtrl with
    | none => simp [hac]
    | some c0 =>
      by_cases hb : c0.aborted
      · simp [hac, hb]
      · simp [hac, hb, finalizeRun]

theorem stepItem_cohort (s : PipeState) (k : PhaseKey) (o : Except Nat Nat)
    (rem : List PhaseKey)
    (hctl : s.control = .awaitingCohort rem)
    (hpr : (s.phases k).promise ≠ none)
    (hk : k ∈ rem) :
    stepItem s (.settle k o)
      = (if (rem.erase k).isEmpty
         then (finalizeRun (settleBody s k o).1,
               (settleBody s k o).2
                 ++ (if allSucceeded (settleBody s k o).1
                     then [.allComplete, .complete (getResults (settleBody s k o).1)]
                     else [.partialComplete (getResults (settleBody s k o).1)
                             (failedKeys (settleBody s k o).1)]))
         else ({ (settleBody s k o).1 with control := .awaitingCohort (rem.erase k) },
               (settleBody s k o).2)) := by
  cases hp : (s.phases k).promise with
  | none => exact absurd hp hpr
  | some c =>
    have hctl1 : (settleBody s k o).1.control = .awaitingCohort rem := by
      rw [settleBody_control, hctl]
    simp only [stepItem, hp, settlePhase]
    rw [hctl1]
    simp [hk]

/-! ## Small key lemmas -/

theorem company_not_mem_cohortKeys : PhaseKey.company ∉ cohortKeys := by decide

theorem mem_cohortKeys_of_ne_company (k : PhaseKey) (h : k ≠ .company) :
    k ∈ cohortKeys := by
  cases k
  case company => exact absurd rfl h
  all_goals decide

theorem settleBody_self_ok (s : PipeState) (k : PhaseKey) (d : Nat) :
    (settleBody s k (.ok d)).1.phases k
      = { s.phases k with
          data := some d
          status := .completed
          endTime := some (s.now + 1)
          promise := none } := by
  simp [settleBody_ok_eq]

theorem settleBody_self_err (s : PipeState) (k : PhaseKey) (e : Nat) :
    (settleBody s k (.error e)).1.phases k
      = { s.phases k with
          status := .error
          error := some e
          endTime := some (s.now + 1)
          promise := none } := by
  simp [settleBody_err_eq]

/-! ## Invariant preservation -/

theorem finalizeRun_phases (s1 : PipeState) (j : PhaseKey) :
    (finalizeRun s1).phases j = s1.phases j := rfl

theorem controlUpdate_phases (s1 : PipeState) (ctl : Control) (j : PhaseKey) :
    ({ s1 with control := ctl } : PipeState).phases j = s1.phases j := rfl

theorem inv_step (s : PipeState) (hInv : Inv s) (it : Item) :
    Inv (stepItem s it).1
    ∧ (∀ k, (s.phases k).status = .completed →
        ((stepItem s it).1.phases k).status = .completed
        ∧ ((stepItem s it).1.phases k).data = (s.phases k).data) := by
  obtain ⟨hsig, hcnp, hni, hawc, hacoh, hdone⟩ := hInv
  cases it with
  | cancel =>
    rw [stepItem_cancel_eq]
    cases hac : s.abortCtrl with
    | none =>
      simp only [cancelOp, hac]
      exact ⟨⟨hsig, hcnp, hni, hawc, hacoh, hdone⟩, fun j hj => ⟨hj, by trivial⟩⟩
    | some c =>
      simp only [cancelOp, hac]
      refine ⟨⟨?_, hcnp, hni, ?_, ?_, ?_⟩, fun j hj => ⟨hj, by trivial⟩⟩
      · intro j ci hpc
        obtain ⟨ctrl0, hc0, hsid⟩ := hsig j ci hpc
        rw [hac] at hc0
        injection hc0 with hc0e
        exact ⟨{ c with aborted := true }, rfl, by rw [hsid, hc0e]⟩
      · intro h
        obtain ⟨h1, _⟩ := hawc h
        exact ⟨h1, by simp⟩
      · intro rem h
        exact hacoh rem h
      · intro h
        obtain ⟨_, _, h3⟩ := hdone h
        rw [hac] at h3
        exact absurd h3 (by simp)
  | settle k o =>
    cases hp : (s.phases k).promise with
    | none =>
      rw [stepItem_settle_noPromise s k o hp]
      exact ⟨⟨hsig, hcnp, hni, hawc, hacoh, hdone⟩, fun j hj => ⟨hj, by trivial⟩⟩
    | some c =>
      have hpne : (s.phases k).promise ≠ none := by rw [hp]; simp
      cases hco : s.control with
      | idle => exact absurd hco hni
      | awaitingCompany =>
        obtain ⟨hpend, hctrl⟩ := hawc hco
        have hkc : k = .company := by
          by_contra hne
          exact hpne ((hpend k (mem_cohortKeys_of_ne_company k hne)).2)
        subst hkc
        cases hac : s.abortCtrl with
        | none => exact absurd hac hctrl
        | some c0 =>
          cases o with
          | ok d =>
            rw [stepItem_company_ok s d hco hpne]
            have hpr1 : ∀ j ∈ cohortKeys,
                ((settleBody s .company (.ok d)).1.phases j).promise = none := by
              intro j hj
              have hjne : j ≠ .company := fun he => company_not_mem_cohortKeys (he ▸ hj)
              rw [settleBody_phases_ne s .company (.ok d) hjne]
              exact (hpend j hj).2
            have hd1 : (settleBody s .company (.ok d)).1.companyDescription = some d := by
              simp [settleBody_ok_eq]
            have hc1 : (settleBody s .company (.ok d)).1.abortCtrl = some c0 := by
              rw [settleBody_abortCtrl]
              exact hac
            obtain ⟨⟨fph, ffr, fctl2, fdesc, frun⟩, fctl, fev⟩ :=
              fanout_facts (settleBody s .company (.ok d)).1 d c0 hpr1 hd1 hc1
            have hcompany_rec :
                (fanout (settleBody s .company (.ok d)).1).1.phases .company
                  = (settleBody s .company (.ok d)).1.phases .company :=
              ffr .company company_not_mem_cohortKeys
            refine ⟨⟨?_, ?_, ?_, ?_, ?_, ?_⟩, ?_⟩
            · intro j ci hpc
              by_cases hj : j = .company
              · subst hj
                rw [hcompany_rec, settleBody_promise_self] at hpc
                exact absurd hpc (by simp)
              · obtain ⟨hst, hdat, ci2, hci2, hpay, hsid⟩ :=
                  fph j (mem_cohortKeys_of_ne_company j hj)
                rw [hci2] at hpc
                injection hpc with hcieq
                refine ⟨c0, ?_, ?_⟩
                · rw [fctl2]
                  exact hc1
                · rw [← hcieq]
                  exact hsid
            · intro j hjs
              by_cases hj : j = .company
              · subst hj
                rw [hcompany_rec]
                exact settleBody_promise_self s .company (.ok d)
              · obtain ⟨hst, _, _⟩ := fph j (mem_cohortKeys_of_ne_company j hj)
                rw [hst] at hjs
                exact absurd hjs (by decide)
            · rw [fctl]
              simp
            · intro h
              rw [fctl] at h
              simp at h
            · intro rem h
              rw [fctl] at h
              injection h with hrem
              subst hrem
              refine ⟨?_, ?_, fun x hx => hx, ?_⟩
              · rw [hcompany_rec, settleBody_self_ok]
              · rw [hcompany_rec]
                exact settleBody_promise_self s .company (.ok d)
              · intro j hjc hjn
                exact absurd hjc hjn
            · intro h
              rw [fctl] at h
              simp at h
            · intro j hjs
              by_cases hj : j = .company
              · subst hj
                exact absurd (hcnp .company hjs) hpne
              · have h1 := (hpend j (mem_cohortKeys_of_ne_company j hj)).1
                rw [h1] at hjs
                exact absurd hjs (by decide)
          | error e =>
            rw [stepItem_company_err s e hco hpne]
            have hprall : ∀ j, ((settleBody s .company (.error e)).1.phases j).promise = none := by
              intro j
              by_cases hj : j = .company
              · subst hj
                exact settleBody_promise_self s .company (.error e)
              · rw [settleBody_phases_ne s .company (.error e) hj]
                exact (hpend j (mem_cohortKeys_of_ne_company j hj)).2
            refine ⟨⟨?_, ?_, ?_, ?_, ?_, ?_⟩, ?_⟩
            · intro j ci hpc
              rw [finalizeRun_phases, hprall j] at hpc
              exact absurd hpc (by simp)
            · intro j hjs
              rw [finalizeRun_phases]
              exact hprall j
            · simp [finalizeRun]
            · intro h
              simp [finalizeRun] at h
            · intro rem h
              simp [finalizeRun] at h
            · intro _
              refine ⟨Or.inr ?_, fun j => by rw [finalizeRun_phases]; exact hprall j, rfl⟩
              intro j hj
              have hjne : j ≠ .company := fun he => company_not_mem_cohortKeys (he ▸ hj)
              rw [finalizeRun_phases, settleBody_phases_ne s .company (.error e) hjne]
              exact hpend j hj
            · intro j hjs
              by_cases hj : j = .company
              · subst hj
                exact absurd (hcnp .company hjs) hpne
              · have h1 := (hpend j (mem_cohortKeys_of_ne_company j hj)).1
                rw [h1] at hjs
                exact absurd hjs (by decide)
      | awaitingCohort rem =>
        obtain ⟨hcomp, hcpr, hsub, hnr⟩ := hacoh rem hco
        have hkc : k ≠ .company := by
          intro he
          exact hpne (he ▸ hcpr)
        have hkcoh : k ∈ cohortKeys := mem_cohortKeys_of_ne_company k hkc
        have hkrem : k ∈ rem := by
          by_contra hkn
          exact hpne (hnr k hkcoh hkn)
        rw [stepItem_cohort s k o rem hco hpne hkrem]
        have hfr : ∀ j, j ≠ k → (settleBody s k o).1.phases j = s.phases j :=
          fun j hj => settleBody_phases_ne s k o hj
        have hself : ((settleBody s k o).1.phases k).promise = none :=
          settleBody_promise_self s k o
        by_cases he : (rem.erase k).isEmpty
        · rw [if_pos he]
          have herase : rem.erase k = [] := by
            cases hee : rem.erase k with
            | nil => rfl
            | cons a l =>
              rw [hee] at he
              simp [List.isEmpty] at he
          have hrem1 : ∀ j ∈ rem, j = k := by
            intro j hj
            by_contra hjk
            have hmem : j ∈ rem.erase k := (List.mem_erase_of_ne hjk).mpr hj
            rw [herase] at hmem
            exact absurd hmem (List.not_mem_nil j)
          have hprall : ∀ j, ((settleBody s k o).1.phases j).promise = none := by
            intro j
            by_cases hj : j = k
            · subst hj
              exact hself
            · rw [hfr j hj]
              by_cases hjc : j = .company
              · subst hjc
                exact hcpr
              · have hjcoh := mem_cohortKeys_of_ne_company j hjc
                by_cases hjrem : j ∈ rem
                · exact absurd (hrem1 j hjrem) hj
                · exact hnr j hjcoh hjrem
          refine ⟨⟨?_, ?_, ?_, ?_, ?_, ?_⟩, ?_⟩
          · intro j ci hpc
            rw [finalizeRun_phases, hprall j] at hpc
            exact absurd hpc (by simp)
          · intro j hjs
            rw [finalizeRun_phases]
            exact hprall j
          · simp [finalizeRun]
          · intro h
            simp [finalizeRun] at h
          · intro rem2 h
            simp [finalizeRun] at h
          · intro _
            refine ⟨Or.inl ?_, fun j => by rw [finalizeRun_phases]; exact hprall j, rfl⟩
            rw [finalizeRun_phases, hfr .company (fun he2 => hkc he2.symm)]
            exact hcomp
          · intro j hjs
            by_cases hj : j = k
            · subst hj
              exact absurd (hcnp j hjs) hpne
            · rw [finalizeRun_phases, hfr j hj]
              exact ⟨hjs, rfl⟩
        · rw [if_neg he]
          refine ⟨⟨?_, ?_, ?_, ?_, ?_, ?_⟩, ?_⟩
          · intro j ci hpc
            rw [controlUpdate_phases] at hpc
            by_cases hj : j = k
            · subst hj
              rw [hself] at hpc
              exact absurd hpc (by simp)
            · rw [hfr j hj] at hpc
              obtain ⟨ctrl0, hc0, hsid⟩ := hsig j ci hpc
              refine ⟨ctrl0, ?_, hsid⟩
              show (settleBody s k o).1.abortCtrl = some ctrl0
              rw [settleBody_abortCtrl]
              exact hc0
          · intro j hjs
            rw [controlUpdate_phases] at hjs ⊢
            by_cases hj : j = k
            · subst hj
              exact hself
            · rw [hfr j hj] at hjs ⊢
              exact hcnp j hjs
          · simp
          · intro h
            have h2 : Control.awaitingCohort (rem.erase k) = .awaitingCompany := h
            simp at h2
          · intro rem2 h
            have h2 : Control.awaitingCohort (rem.erase k) = .awaitingCohort rem2 := h
            injection h2 with hrem2
            subst hrem2
            refine ⟨?_, ?_, ?_, ?_⟩
            · rw [controlUpdate_phases, hfr .company (fun he2 => hkc he2.symm)]
              exact hcomp
            · rw [controlUpdate_phases, hfr .company (fun he2 => hkc he2.symm)]
              exact hcpr
            · exact List.Subset.trans (List.erase_subset k rem) hsub
            · intro j hjc hjn
              rw [controlUpdate_phases]
              by_cases hj : j = k
              · subst hj
                exact hself
              · rw [hfr j hj]
                have hjrem : j ∉ rem := fun hjr => hjn ((List.mem_erase_of_ne hj).mpr hjr)
                exact hnr j hjc hjrem
          · intro h
            have h2 : Control.awaitingCohort (rem.erase k) = .done := h
            simp at h2
          · intro j hjs
            rw [controlUpdate_phases]
            by_cases hj : j = k
            · subst hj
              exact absurd (hcnp j hjs) hpne
            · rw [hfr j hj]
              exact ⟨hjs, rfl⟩
      | done =>
        obtain ⟨_, hnone, _⟩ := hdone hco
        exact absurd (hnone k) hpne

/-! ## Run-level invariant corollaries -/

theorem startRun_inv (s : PipeState) (url : Option String) (hf : Bool)
    (s0 : PipeState) (ev0 : List Event)
    (h : startRun s url hf = .ok (s0, ev0)) :
    Inv s0 ∧ GatingWait s0 := by
  obtain ⟨hev, hctl, hrun, hac, hst, hdata, ⟨ci, hci, hsid⟩, hdesc, hrest, hact⟩ :=
    startRun_shape s url hf s0 ev0 h
  have hpend : CohortPendingAll s0 := by
    intro j hj
    have hjne : j ≠ .company := fun he => company_not_mem_cohortKeys (he ▸ hj)
    rw [hrest j hjne]
    exact ⟨rfl, rfl⟩
  constructor
  · refine ⟨?_, ?_, ?_, ?_, ?_, ?_⟩
    · intro j ci2 hpc
      by_cases hj : j = .company
      · subst hj
        rw [hci] at hpc
        injection hpc with hcie
        exact ⟨{ id := s.nextCtrlId, aborted := false }, hac, by rw [← hcie]; exact hsid⟩
      · rw [hrest j hj] at hpc
        exact absurd hpc (by simp [initPhase])
    · intro j hjs
      by_cases hj : j = .company
      · subst hj
        rw [hst] at hjs
        exact absurd hjs (by decide)
      · rw [hrest j hj] at hjs
        exact absurd hjs (by simp [initPhase])
    · rw [hctl]
      simp
    · intro _
      refine ⟨hpend, ?_⟩
      rw [hac]
      simp
    · intro rem h2
      rw [hctl] at h2
      simp at h2
    · intro h2
      rw [hctl] at h2
      simp at h2
  · refine ⟨hctl, ?_, hpend, ?_⟩
    · rw [hci]
      simp
    · rw [hac]
      simp

theorem inv_traceStates (items : List Item) :
    ∀ (s : PipeState), Inv s → ∀ s2 ∈ traceStates s items, Inv s2 := by
  induction items with
  | nil =>
    intro s hs s2 h2
    simp only [traceStates, List.mem_singleton] at h2
    subst h2
    exact hs
  | cons it its ih =>
    intro s hs s2 h2
    simp only [traceStates] at h2
    rcases List.mem_cons.mp h2 with rfl | h2
    · exact hs
    · exact ih _ (inv_step s hs it).1 s2 h2

theorem completed_stable_traceStates (items : List Item) :
    ∀ (s : PipeState), Inv s → ∀ (k : PhaseKey), (s.phases k).status = .completed →
      ∀ s2 ∈ traceStates s items,
        (s2.phases k).status = .completed ∧ (s2.phases k).data = (s.phases k).data := by
  induction items with
  | nil =>
    intro s hs k hk s2 h2
    simp only [traceStates, List.mem_singleton] at h2
    subst h2
    exact ⟨hk, rfl⟩
  | cons it its ih =>
    intro s hs k hk s2 h2
    simp only [traceStates] at h2
    rcases List.mem_cons.mp h2 with rfl | h2
    · exact ⟨hk, rfl⟩
    · obtain ⟨hst2, hdat2⟩ := (inv_step s hs it).2 k hk
      obtain ⟨hst3, hdat3⟩ := ih _ (inv_step s hs it).1 k hst2 s2 h2
      exact ⟨hst3, by rw [hdat3, hdat2]⟩

theorem inv_gating_order (s2 : PipeState) (h : Inv s2) :
    ∀ k ∈ cohortKeys, (s2.phases k).status ≠ .pending →
      (s2.phases .company).status = .completed := by
  obtain ⟨_, _, hni, hawc, hacoh, hdone⟩ := h
  intro k hk hnp
  cases hco : s2.control with
  | idle => exact absurd hco hni
  | awaitingCompany => exact absurd ((hawc hco).1 k hk).1 hnp
  | awaitingCohort rem => exact (hacoh rem hco).1
  | done =>
    rcases (hdone hco).1 with hcomp | hpend
    · exact hcomp
    · exact absurd (hpend k hk).1 hnp

/-! ## The gating-failure path -/

theorem gatingFail_step (s : PipeState) (e : Nat) (hgw : GatingWait s) :
    DoneDead (stepItem s (.settle .company (.error e))).1
    ∧ (stepItem s (.settle .company (.error e))).2 = [.phaseError .company, .errorEv] := by
  obtain ⟨hctl, hpr, hpend, hac⟩ := hgw
  rw [stepItem_company_err s e hctl hpr]
  refine ⟨⟨rfl, rfl, ?_, ?_, rfl⟩, rfl⟩
  · intro j
    rw [finalizeRun_phases]
    by_cases hj : j = .company
    · subst hj
      exact settleBody_promise_self s .company (.error e)
    · rw [settleBody_phases_ne s .company (.error e) hj]
      exact (hpend j (mem_cohortKeys_of_ne_company j hj)).2
  · intro j hj
    have hjne : j ≠ .company := fun he => company_not_mem_cohortKeys (he ▸ hj)
    rw [finalizeRun_phases, settleBody_phases_ne s .company (.error e) hjne]
    exact hpend j hj

theorem doneDead_step (s : PipeState) (hdd : DoneDead s) (it : Item) :
    stepItem s it = (s, []) := by
  obtain ⟨_, hac, hprom, _, _⟩ := hdd
  cases it with
  | cancel =>
    rw [stepItem_cancel_eq]
    simp [cancelOp, hac]
  | settle k o => exact stepItem_settle_noPromise s k o (hprom k)

theorem doneDead_runItems (s : PipeState) (hdd : DoneDead s) (items : List Item) :
    runItems s items = (s, []) := by
  induction items with
  | nil => rfl
  | cons it its ih =>
    rw [runItems_cons, doneDead_step s hdd it]
    simp [ih]

/-! ## C1: gating discipline -/

/-- C1: in every run started by the orchestrator, no cohort phase is out
of pending in any reachable state unless the gating company phase is
completed in that state; and when the gating call settles with an error,
the run emits errorEv, no cohort phaseStart ever appears in the trace,
and all five cohort phases are still pending in every later state. -/
theorem c1_gating_discipline :
    ∀ (s : PipeState) (url : Option String) (hf : Bool) (s0 : PipeState) (ev0 : List Event),
      startRun s url hf = .ok (s0, ev0) →
      (∀ (items : List Item), ∀ s2 ∈ traceStates s0 items, ∀ k ∈ cohortKeys,
          (s2.phases k).status ≠ .pending → (s2.phases .company).status = .completed)
      ∧ (∀ (e : Nat) (rest : List Item),
          Event.errorEv ∈ ev0 ++ (runItems s0 (Item.settle .company (.error e) :: rest)).2
          ∧ (∀ k ∈ cohortKeys,
              Event.phaseStart k ∉ ev0 ++ (runItems s0 (Item.settle .company (.error e) :: rest)).2)
          ∧ (∀ k ∈ cohortKeys,
              ((runItems s0 (Item.settle .company (.error e) :: rest)).1.phases k).status
                = .pending)) := by
  intro s url hf s0 ev0 h
  obtain ⟨hInv0, hgw0⟩ := startRun_inv s url hf s0 ev0 h
  have hev0 : ev0 = [.start, .phaseStart .company] := (startRun_shape s url hf s0 ev0 h).1
  constructor
  · intro items s2 h2 k hk hnp
    exact inv_gating_order s2 (inv_traceStates items s0 hInv0 s2 h2) k hk hnp
  · intro e rest
    obtain ⟨hdd, hevs⟩ := gatingFail_step s0 e hgw0
    have hrest := doneDead_runItems _ hdd rest
    rw [runItems_cons, hevs, hrest]
    refine ⟨?_, ?_, ?_⟩
    · simp [hev0]
    · intro k hk
      simp only [hev0, List.append_nil, List.mem_append, List.mem_cons,
        List.mem_singleton, List.not_mem_nil]
      intro hcon
      rcases hcon with hcon | hcon
      · rcases hcon with hcon | hcon
        · exact Event.noConfusion hcon
        · rcases hcon with hcon | hcon
          · injection hcon with hke
            exact company_not_mem_cohortKeys (hke ▸ hk)
          · simp at hcon
      · rcases hcon with hcon | hcon
        · exact Event.noConfusion hcon
        · rcases hcon with hcon | hcon
          · exact Event.noConfusion hcon
          · simp at hcon
    · intro k hk
      exact (hdd.2.2.2.1 k hk).1

/-- C1 witness: the gating discipline at a concrete started run. -/
theorem c1_gating_discipline_witness :
    (∀ (items : List Item), ∀ s2 ∈ traceStates wStart.1 items, ∀ k ∈ cohortKeys,
        (s2.phases k).status ≠ .pending → (s2.phases .company).status = .completed)
    ∧ (∀ (e : Nat) (rest : List Item),
        Event.errorEv ∈ wStart.2 ++ (runItems wStart.1 (Item.settle .company (.error e) :: rest)).2
        ∧ (∀ k ∈ cohortKeys,
            Event.phaseStart k ∉ wStart.2 ++ (runItems wStart.1 (Item.settle .company (.error e) :: rest)).2)
        ∧ (∀ k ∈ cohortKeys,
            ((runItems wStart.1 (Item.settle .company (.error e) :: rest)).1.phases k).status
              = .pending)) :=
  c1_gating_discipline initPipeState (some "https://example.com") false wStart.1 wStart.2 rfl

/-! ## The all-settled cohort join -/

theorem list_all_congr {α : Type} (l : List α) (f g : α → Bool)
    (h : ∀ x ∈ l, f x = g x) : l.all f = l.all g := by
  induction l with
  | nil => rfl
  | cons a l2 ih =>
    simp only [List.all_cons]
    rw [h a (List.mem_cons_self a l2), ih (fun x hx => h x (List.mem_cons_of_mem a hx))]

theorem settleBody_events (s : PipeState) (k : PhaseKey) (o : Except Nat Nat) :
    (settleBody s k o).2 = [settleEvent k o] := by
  cases o <;> simp [settleBody_ok_eq, settleBody_err_eq, settleEvent]

theorem settleBody_settledShape (s : PipeState) (k : PhaseKey) (o : Except Nat Nat)
    (hd : (s.phases k).data = none) :
    settledShape ((settleBody s k o).1.phases k) o := by
  cases o with
  | ok v =>
    rw [settleBody_self_ok]
    exact ⟨rfl, rfl, rfl⟩
  | error e =>
    rw [settleBody_self_err]
    exact ⟨rfl, rfl, rfl, hd⟩

theorem cohort_run (order : List PhaseKey) :
    ∀ (s : PipeState) (d : Nat) (g : PhaseKey → Except Nat Nat) (rem : List PhaseKey),
      CohortShape s d g rem →
      List.Perm order rem →
      order ≠ [] →
      (runItems s (order.map (fun k => Item.settle k (g k)))).2
        = order.map (fun k => settleEvent k (g k)) ++ terminalEvents d g
      ∧ (∀ k ∈ cohortKeys,
          settledShape ((runItems s (order.map (fun k => Item.settle k (g k)))).1.phases k) (g k))
      ∧ ((runItems s (order.map (fun k => Item.settle k (g k)))).1.phases .company).status
          = .completed
      ∧ ((runItems s (order.map (fun k => Item.settle k (g k)))).1.phases .company).data = some d
      ∧ (runItems s (order.map (fun k => Item.settle k (g k)))).1.isRunning = false
      ∧ (runItems s (order.map (fun k => Item.settle k (g k)))).1.control = .done := by
  induction order with
  | nil =>
    intro s d g rem hsh hperm hne
    exact absurd rfl hne
  | cons k tail ih =>
    intro s d g rem hsh hperm _
    obtain ⟨hctl, hsub, hnd, hcst, hcda, hcpr, hactive, hsettled⟩ := hsh
    have hkrem : k ∈ rem := hperm.mem_iff.mp (List.mem_cons_self k tail)
    have hkcoh : k ∈ cohortKeys := hsub hkrem
    have hkc : k ≠ .company := fun he => company_not_mem_cohortKeys (he ▸ hkcoh)
    obtain ⟨hkact, hkdat, hkpr⟩ := hactive k hkcoh hkrem
    have hptail : List.Perm tail (rem.erase k) := by
      have h2 := hperm.erase k
      rwa [List.erase_cons_head] at h2
    have hfr : ∀ j, j ≠ k → (settleBody s k (g k)).1.phases j = s.phases j :=
      fun j hj => settleBody_phases_ne s k (g k) hj
    have hstep := stepItem_cohort s k (g k) rem hctl hkpr hkrem
    rw [List.map_cons, runItems_cons, hstep]
    by_cases he : (rem.erase k).isEmpty
    · -- last cohort settle: the allSettled join resumes
      have herase : rem.erase k = [] := by
        cases hee : rem.erase k with
        | nil => rfl
        | cons a l =>
          rw [hee] at he
          simp [List.isEmpty] at he
      have htail0 : tail = [] := by
        rw [herase] at hptail
        exact hptail.eq_nil
      subst htail0
      have hrem1 : rem = [k] := List.perm_singleton.mp hperm.symm
      rw [if_pos he]
      simp only [List.map_nil, runItems_nil]
      have hphases : ∀ j ∈ cohortKeys,
          settledShape ((settleBody s k (g k)).1.phases j) (g j) := by
        intro j hj
        by_cases hjk : j = k
        · subst hjk
          exact settleBody_settledShape s j (g j) hkdat
        · rw [hfr j hjk]
          refine hsettled j hj ?_
          intro hjrem
          rw [hrem1] at hjrem
          simp at hjrem
          exact hjk hjrem
      have hcomp1 : ((settleBody s k (g k)).1.phases .company).status = .completed := by
        rw [hfr .company (fun he2 => hkc he2.symm)]
        exact hcst
      have hcomp2 : ((settleBody s k (g k)).1.phases .company).data = some d := by
        rw [hfr .company (fun he2 => hkc he2.symm)]
        exact hcda
      have hall : allSucceeded (settleBody s k (g k)).1
          = cohortKeys.all (fun j => isOkOutcome (g j)) := by
        show allKeys.all _ = _
        rw [show allKeys = .company :: cohortKeys from rfl, List.all_cons]
        rw [show (((settleBody s k (g k)).1.phases .company).status == Status.completed) = true
          from by rw [hcomp1]; rfl]
        rw [Bool.true_and]
        refine list_all_congr cohortKeys _ _ ?_
        intro j hj
        obtain ⟨hpr2, hsh2⟩ := hphases j hj
        cases hgj : g j with
        | ok v =>
          rw [hgj] at hsh2
          obtain ⟨hst2, hd2⟩ := hsh2
          rw [hst2]
          rfl
        | error e =>
          rw [hgj] at hsh2
          obtain ⟨hst2, herr2, hd2⟩ := hsh2
          rw [hst2]
          rfl
      have hres : getResults (settleBody s k (g k)).1 = resultsOf d g := by
        show allKeys.map _ = _
        rw [show allKeys = .company :: cohortKeys from rfl, List.map_cons]
        unfold resultsOf
        congr 1
        · rw [hcomp2]
        · refine List.map_congr_left ?_
          intro j hj
          obtain ⟨hpr2, hsh2⟩ := hphases j hj
          cases hgj : g j with
          | ok v =>
            rw [hgj] at hsh2
            obtain ⟨hst2, hd2⟩ := hsh2
            simp [okValue, hd2]
          | error e =>
            rw [hgj] at hsh2
            obtain ⟨hst2, herr2, hd2⟩ := hsh2
            simp [okValue, hd2]
      have hfail : failedKeys (settleBody s k (g k)).1
          = cohortKeys.filter (fun j => !(isOkOutcome (g j))) := by
        show allKeys.filter _ = _
        rw [show allKeys = .company :: cohortKeys from rfl, List.filter_cons]
        rw [show (((settleBody s k (g k)).1.phases .company).status == Status.error) = false
          from by rw [hcomp1]; rfl]
        simp only [Bool.false_eq_true, if_false]
        refine List.filter_congr ?_
        intro j hj
        obtain ⟨hpr2, hsh2⟩ := hphases j hj
        cases hgj : g j with
        | ok v =>
          rw [hgj] at hsh2
          obtain ⟨hst2, hd2⟩ := hsh2
          rw [hst2]
          rfl
        | error e =>
          rw [hgj] at hsh2
          obtain ⟨hst2, herr2, hd2⟩ := hsh2
          rw [hst2]
          rfl
      refine ⟨?_, ?_, ?_, ?_, rfl, rfl⟩
      · rw [settleBody_events]
        unfold terminalEvents
        rw [← hall, ← hres, ← hfail]
        simp
      · intro j hj
        rw [finalizeRun_phases]
        exact hphases j hj
      · rw [finalizeRun_phases]
        exact hcomp1
      · rw [finalizeRun_phases]
        exact hcomp2
    · -- settles remain outstanding: the join keeps waiting
      have hne2 : tail ≠ [] := by
        intro h0
        rw [h0] at hptail
        have := hptail.symm.eq_nil
        rw [this] at he
        simp [List.isEmpty] at he
      have hsh2 : CohortShape
          ({ (settleBody s k (g k)).1 with control := .awaitingCohort (rem.erase k) })
          d g (rem.erase k) := by
        refine ⟨rfl, ?_, ?_, ?_, ?_, ?_, ?_, ?_⟩
        · exact List.Subset.trans (List.erase_subset k rem) hsub
        · exact hnd.erase k
        · rw [controlUpdate_phases, hfr .company (fun he2 => hkc he2.symm)]
          exact hcst
        · rw [controlUpdate_phases, hfr .company (fun he2 => hkc he2.symm)]
          exact hcda
        · rw [controlUpdate_phases, hfr .company (fun he2 => hkc he2.symm)]
          exact hcpr
        · intro j hj hjrem
          have hjne : j ≠ k := ((List.Nodup.mem_erase_iff hnd).mp hjrem).1
          rw [controlUpdate_phases, hfr j hjne]
          exact hactive j hj (List.erase_subset k rem hjrem)
        · intro j hj hjrem
          rw [controlUpdate_phases]
          by_cases hjk : j = k
          · subst hjk
            exact settleBody_settledShape s j (g j) hkdat
          · rw [hfr j hjk]
            refine hsettled j hj ?_
            intro hjin
            exact hjrem ((List.Nodup.mem_erase_iff hnd).mpr ⟨hjk, hjin⟩)
      obtain ⟨ihev, ihsh, ihc1, ihc2, ihrun, ihctl⟩ :=
        ih _ d g (rem.erase k) hsh2 hptail hne2
      rw [if_neg he]
      refine ⟨?_, ihsh, ihc1, ihc2, ihrun, ihctl⟩
      rw [settleBody_events, ihev]
      simp

/-! ## C2: all-settled cohort outcome classification -/

/-- C2: when the gating phase succeeds, the run launches all five cohort
phases, waits for every one of them to settle — in any settle order and
with any outcomes — and only then emits a single terminal event:
complete (with the full result set, preceded by allComplete) when all
succeeded, else partialComplete with exactly the keys of the phases in
error; each cohort phase ends completed or error according only to its
own outcome, the run finishes (isRunning = false), and errorEv is never
emitted (start does not throw). -/
theorem c2_allsettled_outcomes :
    ∀ (s : PipeState) (url : Option String) (hf : Bool) (s0 : PipeState) (ev0 : List Event)
      (d : Nat) (g : PhaseKey → Except Nat Nat) (order : List PhaseKey)
      (fin : PipeState × List Event),
      startRun s url hf = .ok (s0, ev0) →
      List.Perm order cohortKeys →
      fin = runItems s0 (Item.settle .company (.ok d)
              :: order.map (fun k => Item.settle k (g k))) →
      ev0 ++ fin.2
        = [.start, .phaseStart .company, .phaseComplete .company, .overviewReady]
          ++ cohortKeys.map Event.phaseStart
          ++ order.map (fun k => settleEvent k (g k))
          ++ terminalEvents d g
      ∧ (∀ k ∈ cohortKeys, (fin.1.phases k).status
          = match g k with | .ok _ => Status.completed | .error _ => Status.error)
      ∧ (fin.1.phases .company).status = .completed
      ∧ fin.1.isRunning = false
      ∧ Event.errorEv ∉ ev0 ++ fin.2 := by
  intro s url hf s0 ev0 d g order fin h hperm hfin
  obtain ⟨hev0, hctl0, hrun0, hac0, hst0, hdata0, ⟨ci, hci, hsid⟩, hdesc0, hrest0, hact0⟩ :=
    startRun_shape s url hf s0 ev0 h
  subst hfin
  have hpr0 : (s0.phases .company).promise ≠ none := by
    rw [hci]
    simp
  rw [runItems_cons, stepItem_company_ok s0 d hctl0 hpr0]
  have hpr1 : ∀ j ∈ cohortKeys,
      ((settleBody s0 .company (.ok d)).1.phases j).promise = none := by
    intro j hj
    have hjne : j ≠ .company := fun he => company_not_mem_cohortKeys (he ▸ hj)
    rw [settleBody_phases_ne s0 .company (.ok d) hjne, hrest0 j hjne]
    rfl
  have hd1 : (settleBody s0 .company (.ok d)).1.companyDescription = some d := by
    simp [settleBody_ok_eq]
  have hc1 : (settleBody s0 .company (.ok d)).1.abortCtrl
      = some { id := s.nextCtrlId, aborted := false } := by
    rw [settleBody_abortCtrl]
    exact hac0
  obtain ⟨⟨fph, ffr, fctl2, fdesc, frun⟩, fctl, fev⟩ :=
    fanout_facts (settleBody s0 .company (.ok d)).1 d { id := s.nextCtrlId, aborted := false }
      hpr1 hd1 hc1
  have hshape : CohortShape (fanout (settleBody s0 .company (.ok d)).1).1 d g cohortKeys := by
    refine ⟨fctl, fun x hx => hx, by decide, ?_, ?_, ?_, ?_, ?_⟩
    · rw [ffr .company company_not_mem_cohortKeys, settleBody_self_ok]
    · rw [ffr .company company_not_mem_cohortKeys, settleBody_self_ok]
    · rw [ffr .company company_not_mem_cohortKeys, settleBody_self_ok]
    · intro j hj hjrem
      obtain ⟨hst, hdat, ci2, hci2, hpay2, hsid2⟩ := fph j hj
      have hjne : j ≠ .company := fun he => company_not_mem_cohortKeys (he ▸ hj)
      refine ⟨hst, ?_, ?_⟩
      · rw [hdat, settleBody_phases_ne s0 .company (.ok d) hjne, hrest0 j hjne]
        rfl
      · rw [hci2]
        simp
    · intro j hj hjrem
      exact absurd hj hjrem
  have hne : order ≠ [] := by
    intro h0
    rw [h0] at hperm
    exact absurd hperm.symm.eq_nil (by decide)
  obtain ⟨cev, csh, cc1, cc2, crun, cctl⟩ :=
    cohort_run order (fanout (settleBody s0 .company (.ok d)).1).1 d g cohortKeys
      hshape hperm hne
  dsimp only
  have hevq :
      ev0 ++ (([Event.phaseComplete .company]
            ++ (fanout (settleBody s0 .company (.ok d)).1).2)
          ++ (runItems (fanout (settleBody s0 .company (.ok d)).1).1
                (order.map (fun k => Item.settle k (g k)))).2)
        = [.start, .phaseStart .company, .phaseComplete .company, .overviewReady]
          ++ cohortKeys.map Event.phaseStart
          ++ order.map (fun k => settleEvent k (g k))
          ++ terminalEvents d g := by
    rw [hev0, fev, cev]
    simp
  refine ⟨hevq, ?_, cc1, crun, ?_⟩
  · intro j hj
    obtain ⟨hpr2, hsh2⟩ := csh j hj
    cases hgj : g j with
    | ok v =>
      rw [hgj] at hsh2
      obtain ⟨hst2, _⟩ := hsh2
      exact hst2
    | error e =>
      rw [hgj] at hsh2
      obtain ⟨hst2, _, _⟩ := hsh2
      exact hst2
  · rw [hevq]
    intro hcon
    rcases List.mem_append.mp hcon with h1 | h1
    · rcases List.mem_append.mp h1 with h2 | h2
      · rcases List.mem_append.mp h2 with h3 | h3
        · simp at h3
        · rcases List.mem_map.mp h3 with ⟨x, _, hx⟩
          exact Event.noConfusion hx
      · rcases List.mem_map.mp h2 with ⟨x, _, hx⟩
        cases hgx : g x with
        | ok v =>
          rw [hgx] at hx
          exact Event.noConfusion hx
        | error e2 =>
          rw [hgx] at hx
          exact Event.noConfusion hx
    · unfold terminalEvents at h1
      by_cases hb : cohortKeys.all (fun k => isOkOutcome (g k))
      · rw [if_pos hb] at h1
        simp at h1
      · rw [if_neg hb] at h1
        simp at h1

/-- C2 witness: the all-settled classification at a concrete run whose
gating phase yields 5 and whose five cohort phases all succeed with 2. -/
theorem c2_allsettled_outcomes_witness :
    wStart.2 ++ (runItems wStart.1 (Item.settle .company (.ok 5)
        :: cohortKeys.map (fun k => Item.settle k (.ok 2)))).2
      = [.start, .phaseStart .company, .phaseComplete .company, .overviewReady]
        ++ cohortKeys.map Event.phaseStart
        ++ cohortKeys.map (fun k => settleEvent k (.ok 2))
        ++ terminalEvents 5 (fun _ => .ok 2)
    ∧ (∀ k ∈ cohortKeys,
        ((runItems wStart.1 (Item.settle .company (.ok 5)
            :: cohortKeys.map (fun k => Item.settle k (.ok 2)))).1.phases k).status
          = .completed)
    ∧ ((runItems wStart.1 (Item.settle .company (.ok 5)
        :: cohortKeys.map (fun k => Item.settle k (.ok 2)))).1.phases .company).status
        = .completed
    ∧ (runItems wStart.1 (Item.settle .company (.ok 5)
        :: cohortKeys.map (fun k => Item.settle k (.ok 2)))).1.isRunning = false
    ∧ Event.errorEv ∉ wStart.2 ++ (runItems wStart.1 (Item.settle .company (.ok 5)
        :: cohortKeys.map (fun k => Item.settle k (.ok 2)))).2 :=
  c2_allsettled_outcomes initPipeState (some "https://example.com") false wStart.1 wStart.2
    5 (fun _ => .ok 2) cohortKeys
    (runItems wStart.1 (Item.settle .company (.ok 5)
        :: cohortKeys.map (fun k => Item.settle k (.ok 2))))
    rfl (List.Perm.refl cohortKeys) rfl

/-! ## C3: cancellation -/

theorem runItems_mem_traceStates (items : List Item) :
    ∀ (s : PipeState), (runItems s items).1 ∈ traceStates s items := by
  induction items with
  | nil =>
    intro s
    rw [runItems_nil]
    simp [traceStates]
  | cons it its ih =>
    intro s
    rw [runItems_cons]
    exact List.mem_cons_of_mem s (ih (stepItem s it).1)

/-- C3 counterexample: in a run cancelled mid-cohort (gating succeeded,
cancel() arrives, the five aborted cohort calls then settle as
failures), a cancelled event is emitted at the moment of cancellation,
but the run's terminal outcome is partialComplete, not cancelled: the
last event of the full trace is the partialComplete of the allSettled
join, so the run does not end in a cancelled terminal outcome as
claimed. -/
theorem c3_counterexample :
    Event.cancelled (some .team) ∈ c3trace
    ∧ c3trace.getLast?
        = some (.partialComplete
            [(.company, some 7), (.team, none), (.funding, none),
             (.competitive, none), (.market, none), (.iprisk, none)]
            [.team, .funding, .competitive, .market, .iprisk])
    ∧ (∀ p, c3trace.getLast? ≠ some (.cancelled p)) := by
  refine ⟨by decide, by decide, ?_⟩
  intro p hcon
  have h2 : c3trace.getLast?
      = some (.partialComplete
          [(.company, some 7), (.team, none), (.funding, none),
           (.competitive, none), (.market, none), (.iprisk, none)]
          [.team, .funding, .competitive, .market, .iprisk]) := by decide
  rw [h2] at hcon
  injection hcon with he
  exact Event.noConfusion he

/-- C3 (amended): calling cancel() at any reachable state of a started
run that still holds a live controller (a run in flight) marks the
single shared abort signal aborted and emits exactly one cancelled event
carrying the first currently-active phase key; every outstanding remote
call at that state — the gating call if still running and any
outstanding cohort calls — was issued with exactly that shared signal,
so all of them are aborted by the one abort(); and every phase already
completed keeps its recorded status and result data in every state
reachable after the cancellation (no rollback). The run's terminal
outcome, however, is reached later through the normal join (error or
partialComplete), not as a cancelled terminal event. -/
theorem c3_cancel_semantics :
    ∀ (s : PipeState) (url : Option String) (hf : Bool) (s0 : PipeState) (ev0 : List Event)
      (pre : List Item) (ctrl : Ctrl),
      startRun s url hf = .ok (s0, ev0) →
      (runItems s0 pre).1.abortCtrl = some ctrl →
      stepItem (runItems s0 pre).1 .cancel
          = ({ (runItems s0 pre).1 with abortCtrl := some { ctrl with aborted := true } },
             [.cancelled (runItems s0 pre).1.activePhases.head?])
      ∧ (∀ k c, ((runItems s0 pre).1.phases k).promise = some c →
          c.signalId = some ctrl.id)
      ∧ (∀ (rest : List Item) (k : PhaseKey),
          ((runItems s0 pre).1.phases k).status = .completed →
          ((runItems (runItems s0 pre).1 (Item.cancel :: rest)).1.phases k).status = .completed
          ∧ ((runItems (runItems s0 pre).1 (Item.cancel :: rest)).1.phases k).data
              = ((runItems s0 pre).1.phases k).data) := by
  intro s url hf s0 ev0 pre ctrl h hac
  obtain ⟨hInv0, _⟩ := startRun_inv s url hf s0 ev0 h
  have hInvPre : Inv (runItems s0 pre).1 :=
    inv_traceStates pre s0 hInv0 _ (runItems_mem_traceStates pre s0)
  refine ⟨?_, ?_, ?_⟩
  · rw [stepItem_cancel_eq]
    simp [cancelOp, hac]
  · intro k c hpc
    obtain ⟨hsig, _, _⟩ := hInvPre
    obtain ⟨ctrl2, hac2, hsid⟩ := hsig k c hpc
    rw [hac] at hac2
    injection hac2 with he
    rw [hsid, he]
  · intro rest k hk
    exact completed_stable_traceStates (Item.cancel :: rest) (runItems s0 pre).1 hInvPre k hk
      _ (runItems_mem_traceStates (Item.cancel :: rest) (runItems s0 pre).1)

/-- C3 witness: the amended cancellation semantics at a concrete run
cancelled right after its gating phase completed. -/
theorem c3_cancel_semantics_witness :
    stepItem (runItems wStart.1 [Item.settle .company (.ok 7)]).1 .cancel
        = ({ (runItems wStart.1 [Item.settle .company (.ok 7)]).1 with
             abortCtrl := some { id := 0, aborted := true } },
           [.cancelled (runItems wStart.1 [Item.settle .company (.ok 7)]).1.activePhases.head?])
    ∧ (∀ k c, ((runItems wStart.1 [Item.settle .company (.ok 7)]).1.phases k).promise = some c →
        c.signalId = some (0 : Nat))
    ∧ (∀ (rest : List Item) (k : PhaseKey),
        ((runItems wStart.1 [Item.settle .company (.ok 7)]).1.phases k).status = .completed →
        ((runItems (runItems wStart.1 [Item.settle .company (.ok 7)]).1
            (Item.cancel :: rest)).1.phases k).status = .completed
        ∧ ((runItems (runItems wStart.1 [Item.settle .company (.ok 7)]).1
            (Item.cancel :: rest)).1.phases k).data
            = ((runItems wStart.1 [Item.settle .company (.ok 7)]).1.phases k).data) :=
  c3_cancel_semantics initPipeState (some "https://example.com") false wStart.1 wStart.2
    [Item.settle .company (.ok 7)] { id := 0, aborted := false } rfl (by decide)

/-! ## C8: retry eligibility and isolation -/

/-- C8: retryPhase succeeds only on a phase in error state (any other
status is rejected); a successful retry of a cohort phase re-issues
exactly that phase's remote call — one phaseStart event, a fresh call
whose payload is the short company description already computed during
the gating phase, under the current shared signal — it never re-runs the
gating phase (every other phase's whole record, the stored description,
the controller, the control point and isRunning are left unchanged), and
the retried phase keeps its recorded data. -/
theorem c8_retry_isolation :
    (∀ (s : PipeState) (k : PhaseKey), (s.phases k).status ≠ .error →
        retryPhase s k = .error .notInErrorState)
    ∧ (∀ (s : PipeState) (k : PhaseKey) (d : Nat) (ctrl : Ctrl),
        k ∈ cohortKeys →
        (s.phases k).status = .error →
        s.companyDescription = some d →
        s.abortCtrl = some ctrl →
        ∃ s2 : PipeState,
          retryPhase s k = .ok (s2, [.phaseStart k], s.nextCallId)
          ∧ (s2.phases k).status = .active
          ∧ (s2.phases k).data = (s.phases k).data
          ∧ (s2.phases k).promise
              = some { id := s.nextCallId, payload := .description d
                       signalId := some ctrl.id }
          ∧ (∀ j, j ≠ k → s2.phases j = s.phases j)
          ∧ s2.companyDescription = s.companyDescription
          ∧ s2.abortCtrl = s.abortCtrl
          ∧ s2.control = s.control
          ∧ s2.isRunning = s.isRunning) := by
  constructor
  · intro s k hne
    simp [retryPhase, hne]
  · intro s k d ctrl hk hst hd hac
    have hkne : k ≠ .company := fun he => company_not_mem_cohortKeys (he ▸ hk)
    have h1 : retryPhase s k
        = .ok (executePhase (updatePhase s k
            { s.phases k with status := .pending, error := none, promise := none }) k) := by
      unfold retryPhase
      rw [if_neg (by simp [hst]), hac]
    have h2 : executePhase (updatePhase s k
          { s.phases k with status := .pending, error := none, promise := none }) k
        = execFresh (updatePhase s k
          { s.phases k with status := .pending, error := none, promise := none }) k := by
      unfold executePhase
      rw [phases_updatePhase_self]
    have hfc : freshCallPayload (updatePhase s k
          { s.phases k with status := .pending, error := none, promise := none }) k
        = .description d :=
      freshCallPayload_cohort _ k d hkne hd
    have hacS : (updatePhase s k
          { s.phases k with status := .pending, error := none, promise := none }).abortCtrl
        = some ctrl := hac
    refine ⟨(execFresh (updatePhase s k
        { s.phases k with status := .pending, error := none, promise := none }) k).1,
      ?_, ?_, ?_, ?_, ?_, rfl, rfl, rfl, rfl⟩
    · rw [h1, h2]
      rfl
    · rw [execFresh_eq]
      simp
    · rw [execFresh_eq]
      simp [updatePhase]
    · rw [execFresh_eq]
      simp only [Function.update_same]
      rw [hfc, hacS]
      rfl
    · intro j hj
      rw [execFresh_eq]
      simp [Function.update_noteq hj, phases_updatePhase_ne s _ hj]

/-- C8 witness: retrying the completed gating phase is rejected, and
retrying the failed team phase of a concrete run re-issues only the team
call with the stored description. -/
theorem c8_retry_isolation_witness :
    retryPhase c8state .company = .error .notInErrorState
    ∧ ∃ s2 : PipeState,
        retryPhase c8state .team = .ok (s2, [.phaseStart .team], c8state.nextCallId)
        ∧ (s2.phases .team).status = .active
        ∧ (s2.phases .team).data = (c8state.phases .team).data
        ∧ (s2.phases .team).promise
            = some { id := c8state.nextCallId, payload := .description 7
                     signalId := some 0 }
        ∧ (∀ j, j ≠ PhaseKey.team → s2.phases j = c8state.phases j)
        ∧ s2.companyDescription = c8state.companyDescription
        ∧ s2.abortCtrl = c8state.abortCtrl
        ∧ s2.control = c8state.control
        ∧ s2.isRunning = c8state.isRunning :=
  ⟨c8_retry_isolation.1 c8state .company (by decide),
   c8_retry_isolation.2 c8state .team 7 { id := 0, aborted := false }
     (by decide) (by decide) (by decide) (by decide)⟩

/-! ## C10: cancel with no controller is a no-op -/

/-- C10: calling cancel() when no run is in flight (the abort controller
is null) changes no pipeline or phase state and emits no event. -/
theorem c10_cancel_noop :
    ∀ s : PipeState, s.abortCtrl = none → cancelOp s = (s, []) := by
  intro s h
  simp [cancelOp, h]

/-- C10 witness: cancel on the pristine pipeline. -/
theorem c10_cancel_noop_witness : cancelOp initPipeState = (initPipeState, []) :=
  c10_cancel_noop initPipeState rfl

/-! ## C9: idempotent in-flight phase execution -/

/-- C9: executing a phase that already holds an in-flight operation
returns that same operation with no state change, no event and no new
remote call; in particular a second executePhase immediately after a
fresh one returns the identity of the first call unchanged. -/
theorem c9_executePhase_idempotent :
    (∀ s k c, (s.phases k).promise = some c → executePhase s k = (s, [], c.id))
    ∧ (∀ s k, (s.phases k).promise = none →
        executePhase (executePhase s k).1 k
          = ((executePhase s k).1, [], (executePhase s k).2.2)) := by
  have h1 : ∀ (s : PipeState) (k : PhaseKey) (c : CallInfo),
      (s.phases k).promise = some c → executePhase s k = (s, [], c.id) := by
    intro s k c h
    simp [executePhase, h]
  refine ⟨h1, ?_⟩
  intro s k h
  have hfresh : executePhase s k = execFresh s k := by
    simp [executePhase, h]
  have hprom : ((execFresh s k).1.phases k).promise
      = some { id := s.nextCallId, payload := freshCallPayload s k
               signalId := s.abortCtrl.map (fun c => c.id) } := by
    simp [execFresh, phases_updatePhase_self]
  rw [hfresh]
  rw [h1 (execFresh s k).1 k _ hprom]
  simp [execFresh]

/-- C9 witness: double execution on a fresh phase issues one call. -/
theorem c9_executePhase_idempotent_witness :
    executePhase (executePhase initPipeState .team).1 .team
      = ((executePhase initPipeState .team).1, [], (executePhase initPipeState .team).2.2) :=
  c9_executePhase_idempotent.2 initPipeState .team rfl

end QLTool
